import Mathlib

/-!
A shallow embedding of the jschannel cross-frame RPC library
(src/examples/tweetsup/static/jschannel.js) together with proofs about its
handshake, dispatch, callback-marshaling and error-normalization logic.
JavaScript values are modeled by `JSVal`, message frames by `Frame`, and the
per-channel mutable variables of `Channel.build` by `ChanState`.  Application
request handlers are modeled by the behaviours the claims exercise
(`HBehavior`), and every invocation of application code is recorded as an
`Event` so that theorems can speak about which continuations fired.
-/

namespace JSChannel

/-- Identity of a callable value: either an application-supplied function
(`token`), or the stand-in that the receiver of a request synthesizes for the
callback declared at `path` of transaction `id` (jschannel.js lines 227-232). -/
inductive FnKind where
  | token (n : Nat)
  | synth (id : Nat) (path : String)
deriving DecidableEq, Repr

/-- JSON-shaped JavaScript values, extended with callables (`fn`), as they
appear in `params` payloads of jschannel messages. -/
inductive JSVal where
  | null
  | bool (b : Bool)
  | num (n : Int)
  | str (s : String)
  | fn (k : FnKind)
  | arr (elts : List JSVal)
  | obj (entries : List (String × JSVal))
deriving Inhabited

/-- Induction over `JSVal` giving hypotheses for every array element and
object entry. -/
theorem JSVal.inductionOn (motive : JSVal → Prop)
    (hnull : motive .null) (hbool : ∀ b, motive (.bool b))
    (hnum : ∀ n, motive (.num n)) (hstr : ∀ s, motive (.str s))
    (hfn : ∀ k, motive (.fn k))
    (harr : ∀ l, (∀ v ∈ l, motive v) → motive (.arr l))
    (hobj : ∀ kvs, (∀ kv ∈ kvs, motive kv.2) → motive (.obj kvs)) :
    ∀ v, motive v := by
  have key : ∀ n v, sizeOf v < n → motive v := by
    intro n
    induction n with
    | zero => intro v h; omega
    | succ n ih =>
      intro v hv
      match v with
      | .null => exact hnull
      | .bool b => exact hbool b
      | .num m => exact hnum m
      | .str s => exact hstr s
      | .fn k => exact hfn k
      | .arr l =>
          refine harr l (fun x hx => ih x ?_)
          have h1 := List.sizeOf_lt_of_mem hx
          simp at hv
          omega
      | .obj kvs =>
          refine hobj kvs (fun kv hkv => ih kv.2 ?_)
          have h1 := List.sizeOf_lt_of_mem hkv
          obtain ⟨k, c⟩ := kv
          simp at hv h1 ⊢
          omega
  exact fun v => key (sizeOf v + 1) v (by omega)

mutual

/-- Boolean equality on values (used to build decidable equality). -/
def beqVal : JSVal → JSVal → Bool
  | .null, .null => true
  | .bool a, .bool b => a == b
  | .num a, .num b => a == b
  | .str a, .str b => a == b
  | .fn a, .fn b => a == b
  | .arr a, .arr b => beqList a b
  | .obj a, .obj b => beqEntries a b
  | _, _ => false

/-- Boolean equality on lists of values. -/
def beqList : List JSVal → List JSVal → Bool
  | [], [] => true
  | a :: as, b :: bs => beqVal a b && beqList as bs
  | _, _ => false

/-- Boolean equality on object entry lists. -/
def beqEntries : List (String × JSVal) → List (String × JSVal) → Bool
  | [], [] => true
  | (k, a) :: as, (k2, b) :: bs => k == k2 && beqVal a b && beqEntries as bs
  | _, _ => false

end

theorem beqVal_refl : ∀ a, beqVal a a = true := by
  intro a
  induction a using JSVal.inductionOn with
  | hnull => rfl
  | hbool b => simp [beqVal]
  | hnum n => simp [beqVal]
  | hstr s => simp [beqVal]
  | hfn k => simp [beqVal]
  | harr l ih =>
      simp only [beqVal]
      induction l with
      | nil => rfl
      | cons hd tl ihl =>
          simp only [beqList, Bool.and_eq_true]
          exact ⟨ih hd (by simp), ihl (fun v hv => ih v (by simp [hv]))⟩
  | hobj kvs ih =>
      simp only [beqVal]
      induction kvs with
      | nil => rfl
      | cons hd tl ihl =>
          obtain ⟨k, c⟩ := hd
          simp only [beqEntries, Bool.and_eq_true]
          refine ⟨⟨by simp, ih (k, c) (by simp)⟩,
            ihl (fun kv hkv => ih kv (by simp [hkv]))⟩

theorem eq_of_beqVal : ∀ a b, beqVal a b = true → a = b := by
  intro a
  induction a using JSVal.inductionOn with
  | hnull => intro b; cases b <;> simp [beqVal]
  | hbool x => intro b; cases b <;> simp [beqVal]
  | hnum x => intro b; cases b <;> simp [beqVal]
  | hstr x => intro b; cases b <;> simp [beqVal]
  | hfn x => intro b; cases b <;> simp [beqVal]
  | harr l ih =>
      intro b
      cases b <;> simp only [beqVal, false_implies, reduceCtorEq]
      case arr l2 =>
        intro h
        simp only [JSVal.arr.injEq]
        induction l generalizing l2 with
        | nil => cases l2 with
            | nil => rfl
            | cons => simp [beqList] at h
        | cons hd tl ihl =>
            cases l2 with
            | nil => simp [beqList] at h
            | cons hd2 tl2 =>
                simp only [beqList, Bool.and_eq_true] at h
                have e1 := ih hd (by simp) hd2 h.1
                have e2 := ihl (fun v hv => ih v (by simp [hv])) tl2 h.2
                rw [e1, e2]
  | hobj kvs ih =>
      intro b
      cases b <;> simp only [beqVal, false_implies, reduceCtorEq]
      case obj kvs2 =>
        intro h
        simp only [JSVal.obj.injEq]
        induction kvs generalizing kvs2 with
        | nil => cases kvs2 with
            | nil => rfl
            | cons => simp [beqEntries] at h
        | cons hd tl ihl =>
            cases kvs2 with
            | nil => obtain ⟨k, c⟩ := hd; simp [beqEntries] at h
            | cons hd2 tl2 =>
                obtain ⟨k, c⟩ := hd
                obtain ⟨k2, c2⟩ := hd2
                simp only [beqEntries, Bool.and_eq_true] at h
                have e0 : k = k2 := by simpa using h.1.1
                have e1 : c = c2 := ih (k, c) (by simp) c2 h.1.2
                have e2 := ihl (fun kv hkv => ih kv (by simp [hkv])) tl2 h.2
                rw [e0, e1, e2]

instance : DecidableEq JSVal := fun a b =>
  decidable_of_iff (beqVal a b = true) ⟨eq_of_beqVal a b, fun h => h ▸ beqVal_refl a⟩

instance {ε α : Type} [DecidableEq ε] [DecidableEq α] :
    DecidableEq (Except ε α) := fun x y =>
  match x, y with
  | .ok a, .ok b =>
      if h : a = b then isTrue (by rw [h]) else isFalse (by simp [h])
  | .error a, .error b =>
      if h : a = b then isTrue (by rw [h]) else isFalse (by simp [h])
  | .ok _, .error _ => isFalse (by simp)
  | .error _, .ok _ => isFalse (by simp)

/-- Lookup in a JavaScript object modeled as an association list (first
binding wins; real JS objects have unique keys). -/
def aget {α β : Type} [DecidableEq α] : List (α × β) → α → Option β
  | [], _ => none
  | (k, v) :: rest, k' => if k' = k then some v else aget rest k'

/-- Property assignment `o[k] = v`: replaces the first binding of `k` in
place, or appends a new binding at the end (JS property-insertion order). -/
def aset {α β : Type} [DecidableEq α] : List (α × β) → α → β → List (α × β)
  | [], k, v => [(k, v)]
  | (k', v') :: rest, k, v =>
      if k = k' then (k, v) :: rest else (k', v') :: aset rest k v

/-- Property deletion `delete o[k]`: removes the first binding of `k`. -/
def adel {α β : Type} [DecidableEq α] : List (α × β) → α → List (α × β)
  | [], _ => []
  | (k', v') :: rest, k => if k = k' then rest else (k', v') :: adel rest k

/-- JavaScript truthiness of a value. -/
def truthy : JSVal → Bool
  | .null => false
  | .bool b => b
  | .num n => n != 0
  | .str s => s ≠ ""
  | _ => true

/-- JavaScript falsiness (the `!e.message` test in error normalization). -/
def jsFalsy (v : JSVal) : Bool := !truthy v

/-- A parsed message frame.  Absent fields are `none` (JS `undefined`); the
source inspects `id`, `method`, `params`, `callbacks`, `callback`, `result`,
`error` and `message`. -/
structure Frame where
  id : Option Nat
  method : Option String
  params : Option JSVal
  callbacks : Option (List String)
  callback : Option String
  result : Option JSVal
  error : Option JSVal
  message : Option JSVal
deriving DecidableEq

/-- A frame with every field absent. -/
def emptyFrame : Frame := ⟨none, none, none, none, none, none, none, none⟩

/-- Truthiness of `m.id` (a numeric field: `0` is falsy). -/
def idTruthy : Option Nat → Bool
  | some i => i ≠ 0
  | none => false

/-- Truthiness of a string-valued field (the empty string is falsy). -/
def strTruthy : Option String → Bool
  | some s => s ≠ ""
  | none => false

/-- Truthiness of an optional JS value. -/
def valTruthy : Option JSVal → Bool
  | some v => truthy v
  | none => false

/-- Escape of one character inside a JSON string literal. -/
def jsonEscapeChar (c : Char) : String :=
  if c = '"' then "\\\"" else if c = '\\' then "\\\\" else String.singleton c

/-- JSON string literal for `s`. -/
def jsonQuote (s : String) : String :=
  "\"" ++ String.join (s.data.map jsonEscapeChar) ++ "\""

mutual

/-- `JSON.stringify`: `none` models the JS result `undefined` (produced for
bare callables).  Callables serialize to `null` inside arrays and are omitted
inside objects, as in JS. -/
def jsonStringify : JSVal → Option String
  | .null => some "null"
  | .bool b => some (cond b "true" "false")
  | .num n => some (toString n)
  | .str s => some (jsonQuote s)
  | .fn _ => none
  | .arr l => some ("[" ++ jsonStringifyList l ++ "]")
  | .obj kvs => some ("\x7b" ++ jsonStringifyEntries kvs ++ "\x7d")

/-- Comma-joined serialization of array elements. -/
def jsonStringifyList : List JSVal → String
  | [] => ""
  | [v] => (jsonStringify v).getD "null"
  | v :: rest => (jsonStringify v).getD "null" ++ "," ++ jsonStringifyList rest

/-- Comma-joined serialization of object entries, omitting callables. -/
def jsonStringifyEntries : List (String × JSVal) → String
  | [] => ""
  | (k, v) :: rest =>
      match jsonStringify v, jsonStringifyEntries rest with
      | none, r => r
      | some sv, "" => jsonQuote k ++ ":" ++ sv
      | some sv, r => jsonQuote k ++ ":" ++ sv ++ "," ++ r

end

/-- Normalization of a value thrown by a request handler into the
`(error, message)` pair of the final error response (jschannel.js lines
238-267).  `Except.error ()` models the TypeError raised when the thrown
value is JS `null` (reading `e.error` from `null` faults); in that case the
channel sends nothing.  In the result, a `none` message models `undefined`
(obtained by stringifying a bare callable). -/
def normalizeError (e : JSVal) : Except Unit (JSVal × Option JSVal) :=
  let restring : JSVal → JSVal → JSVal × Option JSVal :=
    fun code tgt => (code, (jsonStringify tgt).map JSVal.str)
  match e with
  | .str s => .ok (.str "runtime_error", some (.str s))
  | .null => .error ()
  | .arr [c, m] =>
      if m = JSVal.null then .ok (restring c e) else .ok (c, some m)
  | .arr l => .ok (restring (.str "runtime_error") (.arr l))
  | .obj kvs =>
      match aget kvs "error" with
      | some (.str c) =>
          match aget kvs "message" with
          | none => .ok (.str c, some (.str ""))
          | some mv =>
              if jsFalsy mv then .ok (.str c, some (.str ""))
              else
                match mv with
                | .str s => .ok (.str c, some (.str s))
                | mv => .ok (restring (.str c) mv)
      | _ => .ok (restring (.str "runtime_error") (.obj kvs))
  | e => .ok (restring (.str "runtime_error") e)

/-- The modeled behaviour of an application request handler: return a value,
throw a value, or call `delayReturn(true)` and return `undefined`. -/
inductive HBehavior where
  | ret (v : JSVal)
  | thrw (e : JSVal)
  | delay
deriving DecidableEq

/-- An entry of the handler registry `regTbl`: an application handler or the
channel-internal `onReady` handler bound to `__ready` at build time. -/
inductive Handler where
  | user (b : HBehavior)
  | ready
deriving DecidableEq

/-- A transaction-table record: `inn` models `\x7b t: 'in' \x7d`, `out`
models `\x7b t: 'out', callbacks, success, error \x7d`. -/
inductive TranRec where
  | inn
  | out (callbacks : List (String × FnKind)) (success : FnKind)
      (error : Option FnKind)
deriving DecidableEq

/-- The private mutable variables of one channel created by `Channel.build`,
plus `attached` (whether the `message` listener is still installed). -/
structure ChanState where
  chanId : String
  regTbl : List (String × Handler)
  tranTbl : List (Nat × TranRec)
  curTranId : Nat
  ready : Bool
  pendingQueue : List Frame
  attached : Bool
  origin : Option String
  scope : Option String
deriving DecidableEq

/-- Record of one invocation of application code performed while processing
an inbound frame. -/
inductive Event where
  | handlerInvoked (method : String) (transId : Option Nat)
      (params : Option JSVal)
  | localCallback (fk : FnKind) (params : Option JSVal)
  | successCont (fk : FnKind) (result : Option JSVal)
  | errorCont (fk : FnKind) (code : Option JSVal) (message : Option JSVal)
  | uncaught (description : String)
deriving DecidableEq

/-- Outcome of running a handler body. -/
inductive HResult where
  | ret (v : Option JSVal) (delayed : Bool)
  | exc (e : JSVal)
deriving DecidableEq

/-- An engine TypeError surfaces as an Error object; its enumerable own
properties are empty, so it normalizes like `\x7b\x7d`. -/
def typeErrorVal : JSVal := .obj []

/-- An inbound substrate event: sender identity plus the parsed frame. -/
structure MsgEvent where
  origin : String
  frame : Frame
deriving DecidableEq

/-- The `postMessage` wrapper (jschannel.js lines 325-344): before ready and
without the force flag the frame is queued, otherwise it is handed to the
substrate.  The returned list holds the frames actually posted. -/
def postMessage (st : ChanState) (msg : Frame) (force : Bool) :
    ChanState × List Frame :=
  if !force && !st.ready then
    ({st with pendingQueue := st.pendingQueue ++ [msg]}, [])
  else
    (st, [msg])

/-- `scopeMethod` (jschannel.js lines 318-321). -/
def scopeMethod (scope : Option String) (m : String) : String :=
  match scope with
  | some s => if s.length ≠ 0 then s ++ "::" ++ m else m
  | none => m

/-- `obj.notify` (jschannel.js lines 433-439). -/
def notify (st : ChanState) (method : String) (params : Option JSVal) :
    Except String (ChanState × List Frame) :=
  if method = "" then .error "method argument to notify must be string"
  else
    .ok (postMessage st
      {emptyFrame with method := some (scopeMethod st.scope method),
                       params := params} false)

/-- `obj.bind` (jschannel.js lines 387-393). -/
def bind (st : ChanState) (method : String) (cb : Handler) :
    Except String ChanState :=
  if method = "" then .error "method argument to bind must be string"
  else
    match aget st.regTbl method with
    | some _ => .error "method is already bound"
    | none => .ok {st with regTbl := aset st.regTbl method cb}

/-- `obj.unbind` (jschannel.js lines 380-386). -/
def unbind (st : ChanState) (method : String) : ChanState × Bool :=
  match aget st.regTbl method with
  | some _ => ({st with regTbl := adel st.regTbl method}, true)
  | none => (st, false)

/-- `obj.destroy` (jschannel.js lines 440-451): detaches the listener and
clears every table; `cfg.origin` is set to `null` and `cfg.scope` is not
touched. -/
def destroy (st : ChanState) : ChanState :=
  { chanId := "", regTbl := [], tranTbl := [], curTranId := 0,
    ready := false, pendingQueue := [], attached := false, origin := none,
    scope := st.scope }

/-- Queue flush on entering ready (jschannel.js lines 366-368): the loop pops
from the tail of `pendingQueue` and posts each frame while ready, so the
frames leave in reverse (LIFO) order. -/
def flushQueue (st : ChanState) : ChanState × List Frame :=
  ({st with pendingQueue := []}, st.pendingQueue.reverse)

/-- The `onReady` handler bound to `__ready` (jschannel.js lines 346-372).
Returns the new state, the posted frames, and the handler outcome seen by the
dispatcher. -/
def onReady (st : ChanState) (params : Option JSVal) :
    ChanState × List Frame × HResult :=
  if st.ready then
    (st, [], .exc (.str "received ready message while in ready state"))
  else
    let st1 :=
      if params = some (.str "ping") then
        {st with chanId := st.chanId ++ "-R",
                 curTranId := st.curTranId + st.curTranId % 2}
      else
        {st with chanId := st.chanId ++ "-L"}
    let st2 := (unbind st1 "__ready").1
    let st3 := {st2 with ready := true}
    let p :=
      if params = some (.str "ping") then
        match notify st3 "__ready" (some (.str "pong")) with
        | .ok q => q
        | .error _ => (st3, [])
      else (st3, [])
    let q := flushQueue p.1
    (q.1, p.2 ++ q.2, .ret none false)

/-- Run a registry entry with the given transaction id (`none` for
notifications) and params.  A `delay` behaviour invokes
`trans.delayReturn(true)`, which faults when `trans` is `null`. -/
def runHandler (st : ChanState) (h : Handler) (trans : Option Nat)
    (params : Option JSVal) : ChanState × List Frame × HResult :=
  match h with
  | .user (.ret v) => (st, [], .ret (some v) false)
  | .user (.thrw e) => (st, [], .exc e)
  | .user .delay =>
      match trans with
      | some _ => (st, [], .ret none true)
      | none => (st, [], .exc typeErrorVal)
  | .ready => onReady st params

/-- `trans.complete` (jschannel.js lines 140-149). -/
def transComplete (st : ChanState) (id : Nat) (v : Option JSVal) :
    Except String (ChanState × List Frame) :=
  match aget st.tranTbl id with
  | none => .error "complete called for non-existant message"
  | some (.out _ _ _) => .error "complete called for message we sent"
  | some .inn =>
      .ok (postMessage {st with tranTbl := adel st.tranTbl id}
        {emptyFrame with id := some id, result := v} false)

/-- `trans.error` (jschannel.js lines 128-139). -/
def transError (st : ChanState) (id : Nat) (code : JSVal)
    (message : Option JSVal) : Except String (ChanState × List Frame) :=
  match aget st.tranTbl id with
  | none => .error "error called for non-existant message"
  | some (.out _ _ _) => .error "error called for message we sent"
  | some .inn =>
      .ok (postMessage {st with tranTbl := adel st.tranTbl id}
        {emptyFrame with id := some id, error := some code,
                         message := message} false)

/-- `trans.invoke` (jschannel.js lines 117-127): `cbList` is the callback
list captured from the request frame at `createTransaction` time. -/
def transInvoke (st : ChanState) (id : Nat) (cbName : String)
    (cbList : List String) (v : Option JSVal) :
    Except String (ChanState × List Frame) :=
  if (aget st.tranTbl id).isNone then
    .error "attempting to invoke a callback of a non-existant transaction"
  else if !(cbList.contains cbName) then
    .error "request supports no such callback"
  else
    .ok (postMessage st
      {emptyFrame with id := some id, callback := some cbName, params := v}
      false)

/-- The character of one decimal digit. -/
def digitChar (d : Nat) : Char := Char.ofNat (48 + d)

/-- Decimal digits of `n`, most significant first (`fuel` bounds the
recursion). -/
def natKeyCore : Nat → Nat → List Char
  | 0, _ => []
  | fuel + 1, n =>
      if n < 10 then [digitChar n]
      else natKeyCore fuel (n / 10) ++ [digitChar (n % 10)]

/-- The canonical JS array-index key of `n`: its decimal string, the form
`for (var k in arr)` yields and `arr[k]` accepts. -/
def natKey (n : Nat) : String := ⟨natKeyCore (n + 1) n⟩

/-- Path concatenation `path + (path.length ? slash : empty) + k` from
`pruneFunctions` (jschannel.js line 408). -/
def joinPath (path k : String) : String :=
  if path.length ≠ 0 then path ++ "/" ++ k else k

mutual

/-- `pruneFunctions` of `obj.call` (jschannel.js lines 404-419): walks a
params value, removes every callable and returns the pruned value together
with the association from slash-joined path to callable, in discovery
order.  Deleting an object key removes it; deleting an array element leaves
a hole that serializes as `null`. -/
def pruneVal (path : String) : JSVal → JSVal × List (String × FnKind)
  | .obj kvs =>
      let r := pruneEntries path kvs
      (.obj r.1, r.2)
  | .arr l =>
      let r := pruneElts path 0 l
      (.arr r.1, r.2)
  | v => (v, [])

/-- Pruning of the entries of an object, in property order. -/
def pruneEntries (path : String) :
    List (String × JSVal) → List (String × JSVal) × List (String × FnKind)
  | [] => ([], [])
  | (k, c) :: rest =>
      let np := joinPath path k
      let tl := pruneEntries path rest
      match c with
      | .fn fk => (tl.1, (np, fk) :: tl.2)
      | .obj o =>
          let r := pruneEntries np o
          ((k, .obj r.1) :: tl.1, r.2 ++ tl.2)
      | .arr a =>
          let r := pruneElts np 0 a
          ((k, .arr r.1) :: tl.1, r.2 ++ tl.2)
      | c => ((k, c) :: tl.1, tl.2)

/-- Pruning of the elements of an array, walked as an object with index
keys. -/
def pruneElts (path : String) (i : Nat) :
    List JSVal → List JSVal × List (String × FnKind)
  | [] => ([], [])
  | c :: rest =>
      let np := joinPath path (natKey i)
      let tl := pruneElts path (i + 1) rest
      match c with
      | .fn fk => (JSVal.null :: tl.1, (np, fk) :: tl.2)
      | .obj o =>
          let r := pruneEntries np o
          (JSVal.obj r.1 :: tl.1, r.2 ++ tl.2)
      | .arr a =>
          let r := pruneElts np 0 a
          (JSVal.arr r.1 :: tl.1, r.2 ++ tl.2)
      | c => (c :: tl.1, tl.2)

end

/-- Top-level entry of the callable-pruning walk, as invoked by `call` with
an empty root path. -/
def pruneFunctions (path : String) (v : JSVal) :
    JSVal × List (String × FnKind) := pruneVal path v

/-- The character-level semantics of JS `path.split(slash)`. -/
def splitSlash : List Char → List (List Char)
  | [] => [[]]
  | c :: rest =>
      match splitSlash rest with
      | [] => [[]]
      | h :: t => if c = '/' then [] :: h :: t else (c :: h) :: t

/-- JS `path.split(slash)` on strings. -/
def splitSlashStr (s : String) : List String :=
  (splitSlash s.data).map (fun l => ⟨l⟩)

/-- The elements of an array under their index keys, starting at `i`. -/
def arrEntries (i : Nat) : List JSVal → List (String × JSVal)
  | [] => []
  | v :: rest => (natKey i, v) :: arrEntries (i + 1) rest

/-- The keyed children of a value: object entries, or array elements under
their index keys (arrays are walked as objects). -/
def childKeys : JSVal → List (String × JSVal)
  | .obj kvs => kvs
  | .arr l => arrEntries 0 l
  | _ => []

/-- Property read `v[k]`. -/
def childGet (v : JSVal) (k : String) : Option JSVal := aget (childKeys v) k

/-- Assignment into an array element: the element whose canonical index key
is `k` (counting from `i`) is replaced; any other key leaves the array
unchanged. -/
def setArrElts (c : JSVal) (k : String) (i : Nat) :
    List JSVal → List JSVal
  | [] => []
  | v :: rest =>
      if natKey i = k then c :: rest else v :: setArrElts c k (i + 1) rest

/-- Property write `v[k] = c`.  On an object it sets the key; on an array
it sets an existing canonical index slot.  On a number, string or boolean
it is a silent no-op, as sloppy-mode JS assignment to a primitive.  The
targets on which JS instead throws a `TypeError` (`null`, and the
`undefined` of absent params) are detected beforehand by
`installPathFaults`, so the dispatcher never reaches this write on them. -/
def setChild (v : JSVal) (k : String) (c : JSVal) : JSVal :=
  match v with
  | .obj kvs => .obj (aset kvs k c)
  | .arr l => .arr (setArrElts c k 0 l)
  | v => v

/-- The `typeof v === 'object'` test (true for `null`, arrays and objects). -/
def jsTypeofObject : JSVal → Bool
  | .null => true
  | .arr _ => true
  | .obj _ => true
  | _ => false

/-- Installation of one synthetic callback into the request params
(jschannel.js lines 218-233): walk the split path creating empty objects
where the intermediate is not object-typed, then assign the stand-in
callable at the last component. -/
def installOne (v : JSVal) (items : List String) (full : String)
    (tid : Nat) : JSVal :=
  match items with
  | [] => v
  | [lastItem] => setChild v lastItem (.fn (.synth tid full))
  | cp :: rest =>
      let c :=
        match childGet v cp with
        | some c => if jsTypeofObject c then c else JSVal.obj []
        | none => JSVal.obj []
      setChild v cp (installOne c rest full tid)

/-- The loop over `m.callbacks` installing every synthetic callable, on
the walks where it completes without faulting (see `installAll` for the
loop as it actually runs inside the dispatcher's `try`). -/
def installCallbacks (params : JSVal) (paths : List String) (tid : Nat) :
    JSVal :=
  paths.foldl (fun v p => installOne v (splitSlashStr p) p tid) params

/-- Does the install walk of one declared callback path over the current
params value throw a `TypeError`?  (jschannel.js lines 222-230, sloppy
mode.)  Reading or assigning a property of `null` -- or of the `undefined`
of absent params, which the model merges into `null` -- throws.  A
silently failed assignment to a number, string or boolean leaves the walk
on `undefined`, so the following access throws.  An absent child, or one
that fails the `typeof === 'object'` test, is replaced by a fresh empty
object and the rest of the walk cannot fault (a callable target accepts
the write like any object). -/
def installPathFaults : JSVal → List String → Bool
  | _, [] => false
  | v, [_] =>
      match v with
      | .null => true
      | _ => false
  | v, cp :: cp2 :: rest =>
      match v with
      | .null => true
      | .obj kvs =>
          (match aget kvs cp with
           | some c =>
               if jsTypeofObject c then installPathFaults c (cp2 :: rest)
               else false
           | none => false)
      | .arr l =>
          (match childGet (.arr l) cp with
           | some c =>
               if jsTypeofObject c then installPathFaults c (cp2 :: rest)
               else false
           | none => false)
      | .fn _ => false
      | _ => true

/-- The callback-install loop as it actually runs inside the dispatcher's
`try` (jschannel.js lines 218-233): the declared paths are installed in
order into the evolving params value, and a faulting walk raises the
`TypeError` (`.error ()`) that aborts the loop. -/
def installAll (params : JSVal) (paths : List String) (tid : Nat) :
    Except Unit JSVal :=
  match paths with
  | [] => .ok params
  | p :: rest =>
      if installPathFaults params (splitSlashStr p) then .error ()
      else installAll (installOne params (splitSlashStr p) p tid) rest tid

/-- A key usable in an unambiguous slash-joined path: nonempty and free of
the separator. -/
def goodKey (k : String) : Bool := k ≠ "" && !(k.data.contains '/')

/-- No duplicate keys. -/
def keysNodup : List String → Bool
  | [] => true
  | k :: rest => !(rest.contains k) && keysNodup rest

mutual

/-- A params tree whose object keys are nonempty, slash-free and duplicate
free, so that slash-joined paths identify its nodes unambiguously. -/
def goodTree : JSVal → Bool
  | .obj kvs => keysNodup (kvs.map Prod.fst) && goodEntries kvs
  | .arr l => goodElts l
  | _ => true

/-- Goodness of object entries. -/
def goodEntries : List (String × JSVal) → Bool
  | [] => true
  | (k, c) :: rest => goodKey k && goodTree c && goodEntries rest

/-- Goodness of array elements. -/
def goodElts : List JSVal → Bool
  | [] => true
  | c :: rest => goodTree c && goodElts rest

end

/-- Value reached by following a list of keys from the root. -/
def lookupKeys : JSVal → List String → Option JSVal
  | v, [] => some v
  | v, k :: ks =>
      match childGet v k with
      | some c => lookupKeys c ks
      | none => none

/-- The callable sitting at a slash-joined path, if any. -/
def fnAtPath (v : JSVal) (p : String) : Option FnKind :=
  match lookupKeys v (splitSlashStr p) with
  | some (.fn fk) => some fk
  | _ => none

/-- The slash-joined path of a key list, as accumulated by
`pruneFunctions`. -/
def joinKeys (ks : List String) : String := ks.foldl joinPath ""

/-- The error-response construction of the dispatcher catch block
(jschannel.js lines 237-270): normalize the thrown value and send a final
error reply through `trans.error`.  When normalization itself faults (thrown
`null`) or `trans.error` throws, the exception escapes `onMessage` and no
frame is produced. -/
def finishWithError (st : ChanState) (fr : List Frame) (ev : List Event)
    (mid : Nat) (e : JSVal) : ChanState × List Frame × List Event :=
  match normalizeError e with
  | .ok (code, msg) =>
      match transError st mid code msg with
      | .ok (st2, fr2) => (st2, fr ++ fr2, ev)
      | .error s => (st, fr, ev ++ [.uncaught s])
  | .error _ => (st, fr, ev ++ [.uncaught "TypeError"])

/-- The `try` block's install phase (jschannel.js lines 218-233): the
params value handed to the handler after the synthetic callables are
installed, or the `TypeError` of a faulting install walk.  An absent or
empty callback list leaves the params untouched. -/
def installParams (m : Frame) (mid : Nat) : Except Unit (Option JSVal) :=
  match m.callbacks with
  | some cbs =>
      if cbs.length > 0 then
        match installAll ((m.params).getD .null) cbs mid with
        | .error u => .error u
        | .ok w => .ok (some w)
      else .ok m.params
  | none => .ok m.params

/-- Processing of an inbound request with a registered handler
(jschannel.js lines 209-272): store `\x7b t: 'in' \x7d` under the frame id,
then, inside the `try`, install the declared synthetic callables -- a
faulting install raises a `TypeError` that the catch block answers with a
final error reply before the handler ever runs -- run the handler, and
auto-complete, or error-reply on a thrown value. -/
def handleRequest (st : ChanState) (mid : Nat) (meth : String) (h : Handler)
    (m : Frame) : ChanState × List Frame × List Event :=
  match installParams m mid with
  | .error _ =>
      finishWithError {st with tranTbl := aset st.tranTbl mid .inn}
        [] [] mid typeErrorVal
  | .ok params =>
      let st1 := {st with tranTbl := aset st.tranTbl mid .inn}
      let r := runHandler st1 h (some mid) params
      let ev0 := [Event.handlerInvoked meth (some mid) params]
      match r.2.2 with
      | .ret v delayed =>
          if delayed then (r.1, r.2.1, ev0)
          else
            match transComplete r.1 mid v with
            | .ok (st3, fr3) => (st3, r.2.1 ++ fr3, ev0)
            | .error s => finishWithError r.1 r.2.1 ev0 mid (.str s)
      | .exc e => finishWithError r.1 r.2.1 ev0 mid e

/-- Routing of a progress-callback frame (jschannel.js lines 273-282): the
transaction must exist, be outbound, and hold a callable under the named
path; otherwise the frame is ignored. -/
def routeCallback (st : ChanState) (mid : Nat) (cbName : String)
    (params : Option JSVal) : ChanState × List Frame × List Event :=
  match aget st.tranTbl mid with
  | some (.out cbs _ _) =>
      match aget cbs cbName with
      | some fk => (st, [], [.localCallback fk params])
      | none => (st, [], [])
  | _ => (st, [], [])

/-- Routing of a final response frame (jschannel.js lines 283-296): the
transaction must exist and be outbound; the record is removed after the
continuation fires.  An error response against a call that supplied no
error continuation faults before the record is removed. -/
def routeResponse (st : ChanState) (mid : Nat) (m : Frame) :
    ChanState × List Frame × List Event :=
  match aget st.tranTbl mid with
  | some (.out _cbs succ errc) =>
      if valTruthy m.error then
        match errc with
        | some ef =>
            ({st with tranTbl := adel st.tranTbl mid}, [],
              [.errorCont ef m.error m.message])
        | none => (st, [], [.uncaught "TypeError"])
      else
        ({st with tranTbl := adel st.tranTbl mid}, [],
          [.successCont succ m.result])
  | _ => (st, [], [])

/-- Processing of an inbound notification (jschannel.js lines 297-307): a
bound handler is invoked with a `null` transaction; its return value is
discarded and a thrown value bubbles out of `onMessage`. -/
def handleNotification (st : ChanState) (meth : String)
    (params : Option JSVal) : ChanState × List Frame × List Event :=
  match aget st.regTbl meth with
  | none => (st, [], [])
  | some h =>
      let r := runHandler st h none params
      let ev0 := [Event.handlerInvoked meth none params]
      match r.2.2 with
      | .ret _ _ => (r.1, r.2.1, ev0)
      | .exc _ => (r.1, r.2.1, ev0 ++ [.uncaught "notification handler"])

/-- Classification of an inbound frame after origin and scope checks
(jschannel.js lines 209-307): request, progress callback, final response or
notification, with JS truthiness on the discriminating fields. -/
def dispatch (st : ChanState) (m : Frame) :
    ChanState × List Frame × List Event :=
  if idTruthy m.id && strTruthy m.method then
    match aget st.regTbl (m.method.getD "") with
    | some h => handleRequest st (m.id.getD 0) (m.method.getD "") h m
    | none => (st, [], [])
  else if idTruthy m.id && strTruthy m.callback then
    routeCallback st (m.id.getD 0) (m.callback.getD "") m.params
  else if idTruthy m.id && (m.result.isSome || valTruthy m.error) then
    routeResponse st (m.id.getD 0) m
  else if strTruthy m.method then
    handleNotification st (m.method.getD "") m.params
  else (st, [], [])

/-- Truthiness of `cfg.scope` in the descoping test. -/
def scopeTruthy (s : Option String) : Bool := (s.getD "") ≠ ""

/-- Method descoping (jschannel.js lines 176-190): with a configured scope,
an inbound method must be `scope::name`; mismatches drop the frame
(`none`). -/
def descope (scope : Option String) (method : Option String) :
    Option (Option String) :=
  if strTruthy method && scopeTruthy scope then
    match (method.getD "").splitOn "::" with
    | [a, b] => if a = scope.getD "" then some (some b) else none
    | _ => none
  else some method

/-- The origin filter (jschannel.js line 166): proceed only when the
configured origin is the wildcard or equals the sender identity (`none`
models the `null` origin of a destroyed channel and matches nothing). -/
def originOk (cfgOrigin : Option String) (sender : String) : Bool :=
  cfgOrigin == some "*" || cfgOrigin == some sender

/-- The `onMessage` listener (jschannel.js lines 162-315): origin check,
descoping, then dispatch on the frame with the descoped method. -/
def onMessage (st : ChanState) (e : MsgEvent) :
    ChanState × List Frame × List Event :=
  if !originOk st.origin e.origin then (st, [], [])
  else
    match descope st.scope e.frame.method with
    | none => (st, [], [])
    | some m2 => dispatch st {e.frame with method := m2}

/-- Delivery of a substrate event: the listener runs only while attached. -/
def deliver (st : ChanState) (e : MsgEvent) :
    ChanState × List Frame × List Event :=
  if st.attached then onMessage st e else (st, [], [])

/-- Arguments of `obj.call`. -/
structure CallArgs where
  method : String
  params : Option JSVal
  success : Option FnKind
  error : Option FnKind
deriving DecidableEq

/-- `obj.call` (jschannel.js lines 394-432): validate, prune callables out
of the params, assemble the request frame, insert the outbound transaction
record, advance the id counter by 2 and post. -/
def call (st : ChanState) (m : CallArgs) :
    Except String (ChanState × List Frame) :=
  if m.method = "" then .error "method argument to call must be string"
  else
    match m.success with
    | none => .error "success callback missing from call"
    | some succ =>
        let pruned : Option JSVal × List (String × FnKind) :=
          match m.params with
          | some p =>
              let r := pruneFunctions "" p
              (some r.1, r.2)
          | none => (none, [])
        let callbackNames := pruned.2.map Prod.fst
        let cbField : Option (List String) :=
          if callbackNames.length ≠ 0 then some callbackNames else none
        let msg :=
          {emptyFrame with id := some st.curTranId,
                           method := some (scopeMethod st.scope m.method),
                           params := pruned.1,
                           callbacks := cbField}
        let st1 :=
          {st with tranTbl :=
                     aset st.tranTbl st.curTranId (.out pruned.2 succ m.error),
                   curTranId := st.curTranId + 2}
        .ok (postMessage st1 msg false)

/-- `Channel.build` (jschannel.js lines 49-459): fresh tables, a random odd
transaction-id counter (`seed | 1`), the `__ready` binding, and the forced
`ping` notification sent at construction time. -/
def build (cid : String) (seed : Nat) (origin : String)
    (scope : Option String) : ChanState × List Frame :=
  let st : ChanState :=
    { chanId := cid, regTbl := [("__ready", Handler.ready)], tranTbl := [],
      curTranId := seed ||| 1, ready := false, pendingQueue := [],
      attached := true, origin := some origin, scope := scope }
  postMessage st
    {emptyFrame with method := some (scopeMethod scope "__ready"),
                     params := some (.str "ping")} true

/-- Frames actually handed to the substrate by an operation (none when the
operation rejected its arguments). -/
def sentFrames {α : Type} : Except String (α × List Frame) → List Frame
  | .ok p => p.2
  | .error _ => []

/-- Transaction ids consumed by `n` successive calls issued on a channel. -/
def issueCalls (st : ChanState) : Nat → List Nat
  | 0 => []
  | n + 1 =>
      match call st ⟨"m", none, some (.token 0), none⟩ with
      | .ok p => st.curTranId :: issueCalls p.1 n
      | .error _ => []

/-! ### Association-list and postMessage lemmas -/

theorem aget_aset_self {α β : Type} [DecidableEq α] (l : List (α × β))
    (k : α) (v : β) : aget (aset l k v) k = some v := by
  induction l with
  | nil => simp [aset, aget]
  | cons hd tl ih =>
      obtain ⟨k', v'⟩ := hd
      by_cases h : k = k' <;> simp [aset, aget, h, ih]

theorem aget_eq_none {α β : Type} [DecidableEq α] (l : List (α × β)) (k : α)
    (h : k ∉ l.map Prod.fst) : aget l k = none := by
  induction l with
  | nil => rfl
  | cons hd tl ih =>
      obtain ⟨k', v'⟩ := hd
      have h1 : k ≠ k' := fun he =>
        h (by simp only [List.map_cons, List.mem_cons]; exact Or.inl he)
      have h2 : k ∉ tl.map Prod.fst := fun hm =>
        h (by simp only [List.map_cons, List.mem_cons]; exact Or.inr hm)
      simp only [aget, if_neg h1]
      exact ih h2

theorem mem_keys_aset {α β : Type} [DecidableEq α] (l : List (α × β))
    (k a : α) (v : β) (hm : a ∈ (aset l k v).map Prod.fst) :
    a ∈ l.map Prod.fst ∨ a = k := by
  induction l with
  | nil =>
      simp only [aset, List.map_cons, List.map_nil, List.mem_singleton] at hm
      exact Or.inr hm
  | cons hd tl ih =>
      obtain ⟨k', v'⟩ := hd
      have hcons : ∀ x : α, x ∈ (tl.map Prod.fst) →
          x ∈ (((k', v') :: tl).map Prod.fst) := by
        intro x hx
        simp only [List.map_cons, List.mem_cons]
        exact Or.inr hx
      have hhead : k' ∈ (((k', v') :: tl).map Prod.fst) := by simp
      by_cases h : k = k'
      · simp only [aset, if_pos h, List.map_cons, List.mem_cons] at hm
        rcases hm with rfl | hm2
        · exact Or.inr rfl
        · exact Or.inl (hcons a hm2)
      · simp only [aset, if_neg h, List.map_cons, List.mem_cons] at hm
        rcases hm with rfl | hm2
        · exact Or.inl hhead
        · rcases ih hm2 with h1 | h1
          · exact Or.inl (hcons a h1)
          · exact Or.inr h1

theorem nodup_keys_aset {α β : Type} [DecidableEq α] (l : List (α × β))
    (k : α) (v : β) (h : (l.map Prod.fst).Nodup) :
    ((aset l k v).map Prod.fst).Nodup := by
  induction l with
  | nil => simp [aset]
  | cons hd tl ih =>
      obtain ⟨k', v'⟩ := hd
      simp only [List.map_cons, List.nodup_cons] at h
      by_cases hk : k = k'
      · subst hk
        simpa [aset] using h
      · simp only [aset, if_neg hk, List.map_cons, List.nodup_cons]
        refine ⟨fun hm => ?_, ih h.2⟩
        rcases mem_keys_aset tl k k' v hm with h1 | h1
        · exact h.1 h1
        · exact hk h1.symm

theorem aget_adel_self {α β : Type} [DecidableEq α] (l : List (α × β))
    (k : α) (h : (l.map Prod.fst).Nodup) : aget (adel l k) k = none := by
  induction l with
  | nil => rfl
  | cons hd tl ih =>
      obtain ⟨k', v'⟩ := hd
      simp only [List.map_cons, List.nodup_cons] at h
      by_cases hk : k = k'
      · subst hk
        simp only [adel, if_pos rfl]
        exact aget_eq_none tl k h.1
      · simp only [adel, if_neg hk, aget, if_neg hk]
        exact ih h.2

theorem postMessage_tranTbl (st : ChanState) (m : Frame) (f : Bool) :
    (postMessage st m f).1.tranTbl = st.tranTbl := by
  unfold postMessage; split <;> rfl

theorem postMessage_curTranId (st : ChanState) (m : Frame) (f : Bool) :
    (postMessage st m f).1.curTranId = st.curTranId := by
  unfold postMessage; split <;> rfl

/-- When the install loop completes without a `TypeError`, the value it
hands to the handler is the one `installCallbacks` describes. -/
theorem installAll_ok (tid : Nat) : ∀ (paths : List String)
    (params w : JSVal), installAll params paths tid = .ok w →
    w = installCallbacks params paths tid := by
  intro paths
  induction paths with
  | nil =>
      intro params w h
      cases h
      rfl
  | cons p rest ih =>
      intro params w h
      unfold installAll at h
      by_cases hf : installPathFaults params (splitSlashStr p) = true
      · rw [if_pos hf] at h
        cases h
      · rw [if_neg hf] at h
        rw [ih _ w h]
        rfl

/-! ### Concrete fixtures used by witnesses and counterexamples -/

/-- A freshly built channel with wildcard origin, no scope and seed 4
(counter 4 | 1 = 5). -/
def demoChan : ChanState := (build "A" 4 "*" none).1

/-- An inbound `__ready` notification carrying the given payload. -/
def readyEv (p : String) : MsgEvent :=
  ⟨"peer", {emptyFrame with method := some "__ready",
                            params := some (.str p)}⟩

/-- `unbind` only rewrites the handler registry: counter unchanged. -/
theorem unbind_fst_curTranId (st : ChanState) (m : String) :
    (unbind st m).1.curTranId = st.curTranId := by
  unfold unbind; cases aget st.regTbl m <;> rfl

/-- `unbind` leaves the identity string unchanged. -/
theorem unbind_fst_chanId (st : ChanState) (m : String) :
    (unbind st m).1.chanId = st.chanId := by
  unfold unbind; cases aget st.regTbl m <;> rfl

/-- `unbind` leaves the ready flag unchanged. -/
theorem unbind_fst_ready (st : ChanState) (m : String) :
    (unbind st m).1.ready = st.ready := by
  unfold unbind; cases aget st.regTbl m <;> rfl

/-- `unbind` leaves the pending queue unchanged. -/
theorem unbind_fst_pendingQueue (st : ChanState) (m : String) :
    (unbind st m).1.pendingQueue = st.pendingQueue := by
  unfold unbind; cases aget st.regTbl m <;> rfl

/-- `unbind` leaves the scope unchanged. -/
theorem unbind_fst_scope (st : ChanState) (m : String) :
    (unbind st m).1.scope = st.scope := by
  unfold unbind; cases aget st.regTbl m <;> rfl

/-! ### Claim C6 -/

/-- C6: for every inbound frame whose sender identity differs from the
configured expected identity, when that identity is not the wildcard, the
frame causes no state change: no handler or continuation runs (no events),
no frame is sent in reply, and the channel state — registry, transaction
table, ready flag and pending queue included — is unchanged. -/
theorem claim_C6_origin_isolation (st : ChanState) (e : MsgEvent)
    (o : String) (ho : st.origin = some o) (hw : o ≠ "*")
    (hm : e.origin ≠ o) : onMessage st e = (st, [], []) := by
  have hok : originOk st.origin e.origin = false := by
    simp only [originOk, ho, Bool.or_eq_false_iff, beq_eq_false_iff_ne,
      ne_eq, Option.some.injEq]
    exact ⟨hw, fun he => hm he.symm⟩
  simp [onMessage, hok]

/-- Witness for C6: a concrete channel expecting one origin drops a frame
arriving from another. -/
theorem claim_C6_origin_isolation_witness :
    (build "w" 0 "https://x.example" none).1.origin =
        some "https://x.example" ∧
    "https://x.example" ≠ "*" ∧
    ("https://y.example" : String) ≠ "https://x.example" ∧
    onMessage (build "w" 0 "https://x.example" none).1
        ⟨"https://y.example", {emptyFrame with method := some "m"}⟩ =
      ((build "w" 0 "https://x.example" none).1, [], []) :=
  ⟨rfl, by decide, by decide,
    claim_C6_origin_isolation _ _ _ rfl (by decide) (by decide)⟩

/-! ### Claim C9 -/

/-- C9: an inbound notification frame (truthy method, no usable id) with a
bound handler invokes the handler with a null transaction and the frame
params; the return value is discarded, a thrown value never becomes a
frame, and no outbound frame of any kind is produced — the state is
unchanged no matter how the handler behaves. -/
theorem claim_C9_notification_fire_and_forget (st : ChanState) (m : Frame)
    (b : HBehavior) (h1 : idTruthy m.id = false)
    (h2 : strTruthy m.method = true)
    (h3 : aget st.regTbl (m.method.getD "") = some (.user b)) :
    (dispatch st m).1 = st ∧ (dispatch st m).2.1 = [] ∧
      (dispatch st m).2.2.head? =
        some (.handlerInvoked (m.method.getD "") none m.params) := by
  have hd : dispatch st m =
      handleNotification st (m.method.getD "") m.params := by
    simp [dispatch, h1, h2]
  rw [hd]
  unfold handleNotification
  rw [h3]
  cases b <;> simp [runHandler]

/-- C9 fixture: a ready channel with one bound handler that throws. -/
def demoNotifyChan : ChanState :=
  { chanId := "c", regTbl := [("n", .user (.thrw (.str "boom")))],
    tranTbl := [], curTranId := 1, ready := true, pendingQueue := [],
    attached := true, origin := some "*", scope := none }

/-- Witness for C9: a throwing notification handler produces no frame and
no state change on a concrete channel. -/
theorem claim_C9_notification_fire_and_forget_witness :
    idTruthy (none : Option Nat) = false ∧
    strTruthy (some "n") = true ∧
    aget demoNotifyChan.regTbl "n" =
      some (.user (.thrw (.str "boom"))) ∧
    (dispatch demoNotifyChan {emptyFrame with method := some "n"}).1 =
        demoNotifyChan ∧
    (dispatch demoNotifyChan {emptyFrame with method := some "n"}).2.1 =
        [] :=
  ⟨rfl, by decide, rfl,
    (claim_C9_notification_fire_and_forget demoNotifyChan
      {emptyFrame with method := some "n"} (.thrw (.str "boom"))
      rfl (by decide) rfl).1,
    (claim_C9_notification_fire_and_forget demoNotifyChan
      {emptyFrame with method := some "n"} (.thrw (.str "boom"))
      rfl (by decide) rfl).2.1⟩

/-! ### Claim C3 -/

/-- C3 fixture: a not-yet-ready channel that queued the notifications `a`
then `b`, in that order. -/
def preReadyChan : ChanState :=
  match notify demoChan "a" none with
  | .ok p =>
      match notify p.1 "b" none with
      | .ok q => q.1
      | .error _ => p.1
  | .error _ => demoChan

/-- C3: the pending queue holds `[a, b]` (FIFO claim would flush `a` then
`b`), but on entering ready the code pops from the tail, so the substrate
receives `b` before `a` — the flush is LIFO, not FIFO. -/
theorem claim_C3_flush_is_lifo :
    preReadyChan.pendingQueue =
      [{emptyFrame with method := some "a"},
       {emptyFrame with method := some "b"}] ∧
    (deliver preReadyChan (readyEv "pong")).2.1 =
      [{emptyFrame with method := some "b"},
       {emptyFrame with method := some "a"}] ∧
    ({emptyFrame with method := some "b"} : Frame) ≠
      {emptyFrame with method := some "a"} := by
  refine ⟨rfl, rfl, by decide⟩

/-! ### Claim C2 -/

/-- Counterexample to C2 as stated: the claim swaps the two parity actions.
On a concrete channel whose counter is 5 (odd), receiving `__ready`/`ping`
leaves the counter at 6 — even, not odd as claimed — and receiving
`__ready`/`pong` leaves it at 5 — odd and unchanged, not adjusted to even
as claimed. -/
theorem claim_C2_counterexample :
    demoChan.curTranId = 5 ∧
    (deliver demoChan (readyEv "ping")).1.curTranId = 6 ∧
    (6 : Nat) % 2 = 0 ∧
    (deliver demoChan (readyEv "pong")).1.curTranId = 5 ∧
    (5 : Nat) % 2 = 1 :=
  ⟨rfl, rfl, rfl, rfl, rfl⟩

/-- C2 as amended: on `__ready`/`ping` the receiver adds
`counter mod 2` to its counter (making it even), appends `-R` to its
identity, enters ready and replies with a `pong` notification; on any other
payload (`pong` included) it leaves the counter unchanged, appends `-L`,
and enters ready. -/
theorem claim_C2_amended (st : ChanState) (p : Option JSVal)
    (hready : st.ready = false) :
    ((onReady st (some (.str "ping"))).1.curTranId =
        st.curTranId + st.curTranId % 2 ∧
      (onReady st (some (.str "ping"))).1.curTranId % 2 = 0 ∧
      (onReady st (some (.str "ping"))).1.chanId = st.chanId ++ "-R" ∧
      (onReady st (some (.str "ping"))).1.ready = true ∧
      (onReady st (some (.str "ping"))).2.1.head? =
        some {emptyFrame with
                method := some (scopeMethod st.scope "__ready"),
                params := some (.str "pong")}) ∧
    (p ≠ some (.str "ping") →
      (onReady st p).1.curTranId = st.curTranId ∧
      (onReady st p).1.chanId = st.chanId ++ "-L" ∧
      (onReady st p).1.ready = true ∧
      (onReady st p).2.1 = st.pendingQueue.reverse) := by
  constructor
  · refine ⟨?_, ?_, ?_, ?_, ?_⟩ <;>
      simp [onReady, hready, notify, scopeMethod, flushQueue, postMessage,
        unbind_fst_curTranId, unbind_fst_chanId, unbind_fst_ready,
        unbind_fst_pendingQueue, unbind_fst_scope] <;>
      omega
  · intro hp
    refine ⟨?_, ?_, ?_, ?_⟩ <;>
      simp [onReady, hready, if_neg hp, flushQueue,
        unbind_fst_curTranId, unbind_fst_chanId, unbind_fst_ready,
        unbind_fst_pendingQueue, unbind_fst_scope]

/-- Witness for C2 amended, at the concrete channel with counter 5. -/
theorem claim_C2_amended_witness :
    demoChan.ready = false ∧
    (onReady demoChan (some (.str "ping"))).1.curTranId % 2 = 0 ∧
    (onReady demoChan (some (.str "pong"))).1.curTranId =
      demoChan.curTranId :=
  ⟨rfl, (claim_C2_amended demoChan none rfl).1.2.1,
    ((claim_C2_amended demoChan (some (.str "pong")) rfl).2
      (by decide)).1⟩

/-! ### Claim C8 -/

/-- The destroyed concrete channel. -/
def destroyedChan : ChanState := destroy demoChan

/-- Counterexample to C8 as stated: a post-destroy `notify` is not a
state-preserving no-op — it sends no frame, but it mutates the destroyed
channel by enqueuing the frame on the pending queue. -/
theorem claim_C8_counterexample :
    notify destroyedChan "m" none =
      .ok ({destroyedChan with
              pendingQueue := [{emptyFrame with method := some "m"}]},
           []) ∧
    ({destroyedChan with
        pendingQueue := [{emptyFrame with method := some "m"}]} :
        ChanState) ≠ destroyedChan := by
  refine ⟨rfl, by decide⟩

/-- C8 as amended: after destroy the handler registry, the transaction
table and the pending-send buffer are empty; destroy is idempotent; the
listener is detached, so inbound frames are ignored and in-flight calls can
never fire their continuations; and subsequent operations send no frame to
the peer (sends are queued on a channel that can never again become ready)
— but they may still mutate the destroyed channel's internal state. -/
theorem claim_C8_amended (st : ChanState) (e : MsgEvent) (meth : String)
    (p : Option JSVal) (args : CallArgs) :
    (destroy st).regTbl = [] ∧ (destroy st).tranTbl = [] ∧
    (destroy st).pendingQueue = [] ∧
    destroy (destroy st) = destroy st ∧
    deliver (destroy st) e = (destroy st, [], []) ∧
    sentFrames (notify (destroy st) meth p) = [] ∧
    sentFrames (call (destroy st) args) = [] := by
  refine ⟨rfl, rfl, rfl, rfl, ?_, ?_, ?_⟩
  · simp [deliver, destroy]
  · unfold notify
    split
    · rfl
    · simp [sentFrames, postMessage, destroy]
  · unfold call
    split
    · rfl
    · split
      · rfl
      · simp [sentFrames, postMessage, destroy]

/-! ### Claim C10 -/

/-- C10: an inbound request whose descoped method has a registered handler
stores the inbound record `\x7b t: 'in' \x7d` under the frame id even when
that id already keys an in-flight outbound transaction.  Afterwards the id
maps to nothing or to the inbound record: for a delaying handler whose
callback-install phase does not fault it is exactly the inbound record,
while a faulting install (a `TypeError` while planting a declared callback
path) is answered by the catch block, which deletes the record and sends
an error reply before the handler ever runs.  Either way the outbound
record with its continuations is gone, and no success or error
continuation fires while the request is processed. -/
theorem claim_C10_request_overwrites_outbound (st : ChanState) (m : Frame)
    (b : HBehavior) (cbs : List (String × FnKind)) (sc : FnKind)
    (ec : Option FnKind)
    (hnd : (st.tranTbl.map Prod.fst).Nodup)
    (h1 : idTruthy m.id = true) (h2 : strTruthy m.method = true)
    (h3 : aget st.regTbl (m.method.getD "") = some (.user b))
    (h4 : aget st.tranTbl (m.id.getD 0) = some (.out cbs sc ec)) :
    (∀ rec, aget (dispatch st m).1.tranTbl (m.id.getD 0) = some rec →
        rec = .inn) ∧
    (∀ ps, installParams m (m.id.getD 0) = .ok ps → b = .delay →
        aget (dispatch st m).1.tranTbl (m.id.getD 0) = some .inn) ∧
    (installParams m (m.id.getD 0) = .error () →
        aget (dispatch st m).1.tranTbl (m.id.getD 0) = none ∧
        (dispatch st m).2.2 = []) ∧
    (∀ ev ∈ (dispatch st m).2.2,
        (∀ fk r, ev ≠ .successCont fk r) ∧
        (∀ fk c ms, ev ≠ .errorCont fk c ms)) := by
  have hd : dispatch st m =
      handleRequest st (m.id.getD 0) (m.method.getD "") (.user b) m := by
    simp [dispatch, h1, h2, h3]
  have key1 : aget (aset st.tranTbl (m.id.getD 0) TranRec.inn)
      (m.id.getD 0) = some .inn := aget_aset_self _ _ _
  have key2 : aget (adel (aset st.tranTbl (m.id.getD 0) TranRec.inn)
      (m.id.getD 0)) (m.id.getD 0) = none :=
    aget_adel_self _ _ (nodup_keys_aset _ _ _ hnd)
  rw [hd]
  cases hip : installParams m (m.id.getD 0) with
  | error u =>
      cases u
      have hne : normalizeError typeErrorVal =
          .ok (.str "runtime_error", some (.str "\x7b\x7d")) := rfl
      simp only [handleRequest, hip, finishWithError, hne, transError, key1,
        postMessage_tranTbl]
      refine ⟨?_, ?_, ?_, ?_⟩
      · intro rec hrec
        rw [key2] at hrec
        cases hrec
      · intro ps hps
        cases hps
      · intro _
        exact ⟨key2, trivial⟩
      · intro ev hev
        cases hev
  | ok ps =>
      cases b with
      | ret v =>
          simp only [handleRequest, hip, runHandler, transComplete, key1,
            Bool.false_eq_true, if_false, postMessage_tranTbl]
          refine ⟨?_, ?_, ?_, ?_⟩
          · intro rec hrec
            rw [key2] at hrec
            cases hrec
          · intro ps2 hps2 hdel; cases hdel
          · intro hcontra; cases hcontra
          · intro ev hev
            simp only [List.mem_singleton] at hev
            subst hev
            exact ⟨fun fk r => by simp, fun fk c ms => by simp⟩
      | thrw e =>
          cases hne : normalizeError e with
          | ok p =>
              obtain ⟨code, msg⟩ := p
              simp only [handleRequest, hip, runHandler, finishWithError,
                hne, transError, key1, postMessage_tranTbl]
              refine ⟨?_, ?_, ?_, ?_⟩
              · intro rec hrec
                rw [key2] at hrec
                cases hrec
              · intro ps2 hps2 hdel; cases hdel
              · intro hcontra; cases hcontra
              · intro ev hev
                simp only [List.mem_singleton] at hev
                subst hev
                exact ⟨fun fk r => by simp, fun fk c ms => by simp⟩
          | error u =>
              simp only [handleRequest, hip, runHandler, finishWithError,
                hne]
              refine ⟨?_, ?_, ?_, ?_⟩
              · intro rec hrec
                rw [key1] at hrec
                cases hrec
                rfl
              · intro ps2 hps2 hdel; cases hdel
              · intro hcontra; cases hcontra
              · intro ev hev
                simp only [List.mem_append, List.mem_singleton] at hev
                rcases hev with hev | hev <;> subst hev <;>
                  exact ⟨fun fk r => by simp, fun fk c ms => by simp⟩
      | delay =>
          simp only [handleRequest, hip, runHandler, if_true]
          refine ⟨?_, ?_, ?_, ?_⟩
          · intro rec hrec
            rw [key1] at hrec
            cases hrec
            rfl
          · intro ps2 hps2 hdel
            exact key1
          · intro hcontra; cases hcontra
          · intro ev hev
            simp only [List.mem_singleton] at hev
            subst hev
            exact ⟨fun fk r => by simp, fun fk c ms => by simp⟩

/-- C10 fixture: a ready channel holding an outbound transaction under id 9
whose method `m` is also bound to a delaying handler. -/
def demoClashChan : ChanState :=
  { chanId := "c", regTbl := [("m", .user .delay)],
    tranTbl := [(9, .out [] (.token 1) none)], curTranId := 1,
    ready := true, pendingQueue := [], attached := true,
    origin := some "*", scope := none }

/-- Witness for C10: on the concrete channel, the request frame with the
clashing id 9 overwrites the outbound record with the inbound one; the
same request additionally declaring callback path `x` over absent params
makes the install fault, so the record is deleted and the handler never
runs. -/
theorem claim_C10_request_overwrites_outbound_witness :
    (demoClashChan.tranTbl.map Prod.fst).Nodup ∧
    aget demoClashChan.tranTbl 9 = some (.out [] (.token 1) none) ∧
    aget (dispatch demoClashChan
        {emptyFrame with id := some 9, method := some "m"}).1.tranTbl 9 =
      some .inn ∧
    installParams {emptyFrame with
                     id := some 9, method := some "m",
                     callbacks := some ["x"]} 9 = .error () ∧
    aget (dispatch demoClashChan
        {emptyFrame with
           id := some 9, method := some "m",
           callbacks := some ["x"]}).1.tranTbl 9 = none ∧
    (dispatch demoClashChan
        {emptyFrame with
           id := some 9, method := some "m",
           callbacks := some ["x"]}).2.2 = [] :=
  ⟨by decide, rfl,
    (claim_C10_request_overwrites_outbound demoClashChan
        {emptyFrame with id := some 9, method := some "m"} .delay []
        (.token 1) none (by decide) (by decide) (by decide) rfl
        rfl).2.1 none rfl rfl,
    rfl,
    ((claim_C10_request_overwrites_outbound demoClashChan
        {emptyFrame with
           id := some 9, method := some "m",
           callbacks := some ["x"]} .delay []
        (.token 1) none (by decide) (by decide) (by decide) rfl
        rfl).2.2.1 rfl).1,
    ((claim_C10_request_overwrites_outbound demoClashChan
        {emptyFrame with
           id := some 9, method := some "m",
           callbacks := some ["x"]} .delay []
        (.token 1) none (by decide) (by decide) (by decide) rfl
        rfl).2.2.1 rfl).2⟩

/-! ### Claim C7 -/

/-- The inbound frames that do not match channel state, per C7: a request
whose descoped method has no registered handler; a progress frame whose id
is unknown, not outbound, or whose callback path was not declared; a final
response whose id is unknown or not outbound. -/
def Mismatched (st : ChanState) (m : Frame) : Prop :=
  (idTruthy m.id = true ∧ strTruthy m.method = true ∧
      aget st.regTbl (m.method.getD "") = none) ∨
  (idTruthy m.id = true ∧ strTruthy m.method = false ∧
      strTruthy m.callback = true ∧
      (∀ cbs sc ec,
        aget st.tranTbl (m.id.getD 0) = some (.out cbs sc ec) →
        aget cbs (m.callback.getD "") = none)) ∨
  (idTruthy m.id = true ∧ strTruthy m.method = false ∧
      strTruthy m.callback = false ∧
      (m.result.isSome || valTruthy m.error) = true ∧
      (aget st.tranTbl (m.id.getD 0) = none ∨
        aget st.tranTbl (m.id.getD 0) = some .inn))

/-- C7: every mismatched inbound frame is dropped: no continuation or
handler runs (no events), no frame is sent back to the peer, and the state
is unchanged. -/
theorem claim_C7_mismatched_frames_dropped (st : ChanState) (m : Frame)
    (h : Mismatched st m) : dispatch st m = (st, [], []) := by
  rcases h with ⟨h1, h2, h3⟩ | ⟨h1, h2, h3, h4⟩ | ⟨h1, h2, h3, h4, h5⟩
  · simp [dispatch, h1, h2, h3]
  · have hd : dispatch st m =
        routeCallback st (m.id.getD 0) (m.callback.getD "") m.params := by
      simp [dispatch, h1, h2, h3]
    rw [hd]
    unfold routeCallback
    cases hc : aget st.tranTbl (m.id.getD 0) with
    | none => rfl
    | some rec =>
        cases rec with
        | inn => rfl
        | out cbs2 sc2 ec2 =>
            have hnone := h4 cbs2 sc2 ec2 hc
            simp [hnone]
  · have hd : dispatch st m = routeResponse st (m.id.getD 0) m := by
      simp [dispatch, h1, h2, h3, h4]
    rw [hd]
    unfold routeResponse
    rcases h5 with h5 | h5 <;> rw [h5]

/-- Witness for C7: a request with an unhandled method on a concrete
channel is dropped with no state change, no reply and no events. -/
theorem claim_C7_mismatched_frames_dropped_witness :
    Mismatched demoNotifyChan
      {emptyFrame with id := some 3, method := some "zz"} ∧
    dispatch demoNotifyChan
        {emptyFrame with id := some 3, method := some "zz"} =
      (demoNotifyChan, [], []) :=
  ⟨Or.inl ⟨by decide, by decide, rfl⟩,
    claim_C7_mismatched_frames_dropped demoNotifyChan
      {emptyFrame with id := some 3, method := some "zz"}
      (Or.inl ⟨by decide, by decide, rfl⟩)⟩

/-! ### Claim C5 -/

/-- C5 fixture: a ready channel whose handler throws an object with a
string `error` field and the falsy, non-string `message` field `0`. -/
def demoThrowChan : ChanState :=
  { chanId := "c",
    regTbl := [("m", .user (.thrw
      (.obj [("error", .str "E"), ("message", .num 0)])))],
    tranTbl := [], curTranId := 1, ready := true, pendingQueue := [],
    attached := true, origin := some "*", scope := none }

/-- Counterexample to C5 as stated: for a thrown object with string
`error` field `E` and message field `0`, the claim says the final error
response carries the serialization of the message field (the string `0`)
as message; the code instead sends the empty string, because `!e.message`
is true for every falsy message field. -/
theorem claim_C5_counterexample :
    (deliver demoThrowChan
        ⟨"o", {emptyFrame with id := some 9, method := some "m"}⟩).2.1 =
      [{emptyFrame with id := some 9, error := some (.str "E"),
                        message := some (.str "")}] ∧
    jsonStringify (.num 0) = some "0" ∧
    some (JSVal.str "") ≠ some (JSVal.str "0") :=
  ⟨rfl, rfl, by decide⟩

/-- The error normalization as the amended claim words it, organized by
the shape of the thrown value: a string maps to `runtime_error` with the
string as message; a two-element list maps to (first, second) unless the
second is `null`, in which case the message is the serialization of the
whole list; an object with a string `error` field maps to that code with a
message that is the `message` field when it is a truthy string, the empty
string when the field is absent or falsy, and the serialization of the
field otherwise; thrown `null` faults and produces no response; everything
else maps to `runtime_error` with the serialization of the value (absent
for a bare callable). -/
def normalizeAmended (e : JSVal) : Except Unit (JSVal × Option JSVal) :=
  match e with
  | .str s => .ok (.str "runtime_error", some (.str s))
  | .null => .error ()
  | .arr [c, m] =>
      if m = JSVal.null then
        .ok (c, (jsonStringify (.arr [c, m])).map JSVal.str)
      else .ok (c, some m)
  | .obj kvs =>
      match aget kvs "error" with
      | some (.str c) =>
          match aget kvs "message" with
          | some (.str s) => .ok (.str c, some (.str s))
          | some mv =>
              if truthy mv then .ok (.str c, (jsonStringify mv).map JSVal.str)
              else .ok (.str c, some (.str ""))
          | none => .ok (.str c, some (.str ""))
      | _ => .ok (.str "runtime_error",
          (jsonStringify (.obj kvs)).map JSVal.str)
  | e => .ok (.str "runtime_error", (jsonStringify e).map JSVal.str)

/-- C5 as amended: for every thrown value, the `(code, message)` pair of
the final error response is the one computed by `normalizeAmended` — the
shape-by-shape description above, which differs from the claim for falsy
non-string message fields, for two-element lists with a `null` second
element, and for thrown `null`. -/
theorem claim_C5_amended (e : JSVal) :
    normalizeError e = normalizeAmended e := by
  cases e with
  | null => rfl
  | bool b => rfl
  | num n => rfl
  | str s => rfl
  | fn k => rfl
  | arr l =>
      match l with
      | [] => rfl
      | [a] => rfl
      | [a, b] =>
          by_cases hb : b = JSVal.null <;>
            simp [normalizeError, normalizeAmended, hb]
      | a :: b :: c :: rest => rfl
  | obj kvs =>
      cases hE : aget kvs "error" with
      | none => simp [normalizeError, normalizeAmended, hE]
      | some v =>
          cases v with
          | str c =>
              cases hM : aget kvs "message" with
              | none => simp [normalizeError, normalizeAmended, hE, hM]
              | some mv =>
                  cases mv with
                  | str s =>
                      by_cases hs : s = "" <;>
                        simp [normalizeError, normalizeAmended, hE, hM,
                          jsFalsy, truthy, hs]
                  | null =>
                      simp [normalizeError, normalizeAmended, hE, hM,
                        jsFalsy, truthy]
                  | bool b =>
                      cases b <;>
                        simp [normalizeError, normalizeAmended, hE, hM,
                          jsFalsy, truthy]
                  | num n =>
                      by_cases hn : n = 0 <;>
                        simp [normalizeError, normalizeAmended, hE, hM,
                          jsFalsy, truthy, hn]
                  | fn k =>
                      simp [normalizeError, normalizeAmended, hE, hM,
                        jsFalsy, truthy]
                  | arr l2 =>
                      simp [normalizeError, normalizeAmended, hE, hM,
                        jsFalsy, truthy]
                  | obj kvs2 =>
                      simp [normalizeError, normalizeAmended, hE, hM,
                        jsFalsy, truthy]
          | null => simp [normalizeError, normalizeAmended, hE]
          | bool b => simp [normalizeError, normalizeAmended, hE]
          | num n => simp [normalizeError, normalizeAmended, hE]
          | fn k => simp [normalizeError, normalizeAmended, hE]
          | arr l2 => simp [normalizeError, normalizeAmended, hE]
          | obj kvs2 => simp [normalizeError, normalizeAmended, hE]

/-! ### Claim C1 -/

/-- The initial counter `r | 1` is odd. -/
theorem lor_one_mod_two (n : Nat) : (n ||| 1) % 2 = 1 := by
  have h := Nat.testBit_lor n 1 0
  have h2 : (n ||| 1).testBit 0 = true := by
    rw [h]
    simp
  rw [Nat.testBit_zero] at h2
  exact of_decide_eq_true h2

/-- One parameterless call consumes the current counter and advances it
by two. -/
theorem call_dummy (st : ChanState) :
    call st ⟨"m", none, some (.token 0), none⟩ =
      .ok (postMessage
        {st with tranTbl := aset st.tranTbl st.curTranId
                   (.out [] (.token 0) none),
                 curTranId := st.curTranId + 2}
        {emptyFrame with id := some st.curTranId,
                         method := some (scopeMethod st.scope "m")}
        false) := rfl

/-- The ids of `n` successive calls are the arithmetic progression of step 2
starting at the current counter. -/
theorem issueCalls_eq (n : Nat) : ∀ st : ChanState,
    issueCalls st n = (List.range n).map (fun k => st.curTranId + 2 * k) := by
  induction n with
  | zero => intro st; rfl
  | succ n ih =>
      intro st
      unfold issueCalls
      rw [call_dummy]
      simp only []
      rw [ih]
      rw [postMessage_curTranId]
      simp only [List.range_succ_eq_map, List.map_cons, List.map_map]
      refine congrArg₂ _ (by omega) ?_
      refine List.map_congr_left ?_
      intro a _
      simp [Function.comp]
      omega

/-- C1: for both orderings of the two-step handshake (the side whose `ping`
got through receives the `pong`; the other side receives the `ping` and
replies), and for any random seeds, the transaction ids subsequently
generated by the two peers are disjoint: the ping receiver's counter is
offset to even and the pong receiver's counter stays odd, and both advance
by 2 per call, so no id is ever produced by both sides. -/
theorem claim_C1_id_disjointness (sa sb m n : Nat) :
    (issueCalls (deliver (build "A" sa "*" none).1 (readyEv "ping")).1 m) ∩
      (issueCalls (deliver (build "B" sb "*" none).1 (readyEv "pong")).1 n)
      = [] := by
  have hA : (deliver (build "A" sa "*" none).1 (readyEv "ping")).1.curTranId
      = (sa ||| 1) + (sa ||| 1) % 2 := rfl
  have hB : (deliver (build "B" sb "*" none).1 (readyEv "pong")).1.curTranId
      = sb ||| 1 := rfl
  have oddA : (sa ||| 1) % 2 = 1 := lor_one_mod_two sa
  have oddB : (sb ||| 1) % 2 = 1 := lor_one_mod_two sb
  rw [List.eq_nil_iff_forall_not_mem]
  intro x hx
  rw [List.mem_inter_iff] at hx
  obtain ⟨h1, h2⟩ := hx
  rw [issueCalls_eq, hA] at h1
  rw [issueCalls_eq, hB] at h2
  simp only [List.mem_map, List.mem_range] at h1 h2
  obtain ⟨k1, _, e1⟩ := h1
  obtain ⟨k2, _, e2⟩ := h2
  omega

/-! ### Claim C4: decimal index keys -/

/-- Numeric value of a digit character. -/
def digitVal (c : Char) : Nat := c.toNat - 48

/-- Parse-back of a digit list, most significant first. -/
def listVal (l : List Char) : Nat :=
  l.foldl (fun a c => 10 * a + digitVal c) 0

theorem digitVal_digitChar (d : Nat) (h : d < 10) :
    digitVal (digitChar d) = d := by
  interval_cases d <;> decide

theorem digitChar_ne_slash (d : Nat) (h : d < 10) : digitChar d ≠ '/' := by
  interval_cases d <;> decide

theorem natKeyCore_ne_nil (fuel n : Nat) (h : n < fuel) :
    natKeyCore fuel n ≠ [] := by
  cases fuel with
  | zero => omega
  | succ fuel =>
      unfold natKeyCore
      split
      · simp
      · simp

theorem natKeyCore_digits (fuel n : Nat) (h : n < fuel) :
    ∀ c ∈ natKeyCore fuel n, ∃ d, d < 10 ∧ c = digitChar d := by
  induction fuel generalizing n with
  | zero => omega
  | succ fuel ih =>
      unfold natKeyCore
      split
      · intro c hc
        simp at hc
        subst hc
        exact ⟨n, by omega, rfl⟩
      · intro c hc
        simp at hc
        rcases hc with hc | hc
        · exact ih (n / 10) (by omega) c hc
        · exact ⟨n % 10, by omega, hc⟩

theorem foldl_val_append (a : List Char) (c : Char) (acc : Nat) :
    List.foldl (fun a c => 10 * a + digitVal c) acc (a ++ [c]) =
      10 * List.foldl (fun a c => 10 * a + digitVal c) acc a +
        digitVal c := by
  rw [List.foldl_append]
  rfl

theorem listVal_natKeyCore (fuel n : Nat) (h : n < fuel) :
    listVal (natKeyCore fuel n) = n := by
  induction fuel generalizing n with
  | zero => omega
  | succ fuel ih =>
      unfold natKeyCore
      split
      · unfold listVal
        simp [digitVal_digitChar n (by omega)]
      · unfold listVal
        rw [foldl_val_append]
        have hv := ih (n / 10) (by omega)
        unfold listVal at hv
        rw [hv]
        rw [digitVal_digitChar (n % 10) (by omega)]
        omega

theorem natKey_inj : Function.Injective natKey := by
  intro a b h
  have hd : natKeyCore (a + 1) a = natKeyCore (b + 1) b := by
    have := congrArg String.data h
    simpa [natKey] using this
  have ha := listVal_natKeyCore (a + 1) a (by omega)
  have hb := listVal_natKeyCore (b + 1) b (by omega)
  rw [hd] at ha
  omega

theorem natKey_ne_empty (n : Nat) : natKey n ≠ "" := by
  intro h
  have := congrArg String.data h
  simp [natKey] at this
  exact natKeyCore_ne_nil (n + 1) n (by omega) this

theorem natKey_no_slash (n : Nat) : '/' ∉ (natKey n).data := by
  intro h
  simp only [natKey] at h
  obtain ⟨d, hd, he⟩ := natKeyCore_digits (n + 1) n (by omega) _ h
  exact digitChar_ne_slash d hd he.symm

/-- Every array index key is a usable path component. -/
theorem goodKey_natKey (n : Nat) : goodKey (natKey n) = true := by
  simp only [goodKey, Bool.and_eq_true]
  refine ⟨by simpa using natKey_ne_empty n, ?_⟩
  simpa using natKey_no_slash n

/-! ### Claim C4: association, array and split lemmas -/

theorem aget_aset_ne {α β : Type} [DecidableEq α] (l : List (α × β))
    (k k' : α) (v : β) (h : k' ≠ k) : aget (aset l k v) k' = aget l k' := by
  induction l with
  | nil => simp [aset, aget, h]
  | cons hd tl ih =>
      obtain ⟨k2, v2⟩ := hd
      by_cases hk : k = k2
      · subst hk
        simp [aset, aget, h]
      · simp only [aset, if_neg hk, aget]
        by_cases hk2 : k' = k2 <;> simp [hk2, ih]

theorem aget_arrEntries (l : List JSVal) (i j : Nat) :
    aget (arrEntries i l) (natKey j) =
      if i ≤ j ∧ j < i + l.length then l[j - i]? else none := by
  induction l generalizing i with
  | nil => simp [arrEntries, aget]
  | cons v rest ih =>
      simp only [arrEntries, aget]
      by_cases hj : j = i
      · subst hj
        simp
      · have hne : natKey j ≠ natKey i := fun he => hj (natKey_inj he)
        rw [if_neg hne, ih (i + 1)]
        have hlen : (v :: rest).length = rest.length + 1 := rfl
        by_cases hc : i + 1 ≤ j ∧ j < i + 1 + rest.length
        · rw [if_pos hc, if_pos (by omega)]
          have hji : j - i = (j - (i + 1)) + 1 := by omega
          rw [hji]
          simp
        · rw [if_neg hc, if_neg (by omega)]

theorem aget_arrEntries_none (l : List JSVal) (i : Nat) (k : String)
    (hk : ∀ j, k ≠ natKey j) : aget (arrEntries i l) k = none := by
  induction l generalizing i with
  | nil => rfl
  | cons v rest ih =>
      simp only [arrEntries, aget]
      rw [if_neg (hk i), ih (i + 1)]

theorem setArrElts_set (c : JSVal) (l : List JSVal) (i j : Nat)
    (h1 : i ≤ j) (h2 : j < i + l.length) :
    setArrElts c (natKey j) i l = l.set (j - i) c := by
  induction l generalizing i with
  | nil => simp at h2; omega
  | cons v rest ih =>
      simp only [setArrElts]
      by_cases hj : j = i
      · subst hj
        simp
      · have hne : natKey i ≠ natKey j := fun he => hj (natKey_inj he).symm
        rw [if_neg hne, ih (i + 1) (by omega) (by simp at h2 ⊢; omega)]
        have : j - i = (j - (i + 1)) + 1 := by omega
        rw [this]
        simp

theorem setArrElts_out (c : JSVal) (l : List JSVal) (i j : Nat)
    (h : i + l.length ≤ j) : setArrElts c (natKey j) i l = l := by
  induction l generalizing i with
  | nil => rfl
  | cons v rest ih =>
      simp only [setArrElts]
      have hne : natKey i ≠ natKey j := by
        intro he
        have := natKey_inj he
        simp at h
        omega
      rw [if_neg hne, ih (i + 1) (by simp at h ⊢; omega)]

theorem setArrElts_nonkey (c : JSVal) (l : List JSVal) (i : Nat)
    (k : String) (hk : ∀ j, k ≠ natKey j) : setArrElts c k i l = l := by
  induction l generalizing i with
  | nil => rfl
  | cons v rest ih =>
      simp only [setArrElts]
      rw [if_neg (fun he => hk i he.symm), ih (i + 1)]

theorem setArrElts_length (c : JSVal) (k : String) (i : Nat)
    (l : List JSVal) : (setArrElts c k i l).length = l.length := by
  induction l generalizing i with
  | nil => rfl
  | cons v rest ih =>
      simp only [setArrElts]
      split <;> simp [ih]

/-- `childGet` on an array under its canonical index key. -/
theorem childGet_arr (l : List JSVal) (j : Nat) :
    childGet (.arr l) (natKey j) = l[j]? := by
  simp only [childGet, childKeys, aget_arrEntries]
  by_cases hj : j < l.length
  · rw [if_pos (by omega)]
    simp
  · rw [if_neg (by omega)]
    rw [List.getElem?_eq_none (by omega)]

theorem childGet_arr_nonkey (l : List JSVal) (k : String)
    (hk : ∀ j, k ≠ natKey j) : childGet (.arr l) k = none := by
  simp only [childGet, childKeys]
  exact aget_arrEntries_none l 0 k hk

theorem childGet_setChild_self (v : JSVal) (k : String) (c : JSVal)
    (h : (childGet v k).isSome) : childGet (setChild v k c) k = some c := by
  cases v with
  | obj kvs =>
      simp only [childGet, childKeys, setChild]
      exact aget_aset_self kvs k c
  | arr l =>
      by_cases hcanon : ∃ j, k = natKey j
      · obtain ⟨j, rfl⟩ := hcanon
        have hj : j < l.length := by
          by_contra hj
          rw [childGet_arr, List.getElem?_eq_none (by omega)] at h
          simp at h
        simp only [setChild]
        rw [setArrElts_set c l 0 j (by omega) (by omega)]
        rw [childGet_arr]
        simp only [Nat.sub_zero]
        exact List.getElem?_set_eq_of_lt c hj
      · exfalso
        rw [childGet_arr_nonkey l k (fun j he => hcanon ⟨j, he⟩)] at h
        simp at h
  | null => simp [childGet, childKeys, aget] at h
  | bool b => simp [childGet, childKeys, aget] at h
  | num n => simp [childGet, childKeys, aget] at h
  | str s => simp [childGet, childKeys, aget] at h
  | fn fk => simp [childGet, childKeys, aget] at h



theorem childGet_setChild_ne (v : JSVal) (k k' : String) (c : JSVal)
    (h : k' ≠ k) : childGet (setChild v k c) k' = childGet v k' := by
  cases v with
  | obj kvs =>
      simp only [setChild, childGet, childKeys]
      exact aget_aset_ne kvs k k' c h
  | arr l =>
      simp only [setChild]
      by_cases hcanon : ∃ j, k = natKey j
      · obtain ⟨j, rfl⟩ := hcanon
        by_cases hj : j < l.length
        · rw [setArrElts_set c l 0 j (by omega) (by simp; omega)]
          simp only [Nat.sub_zero]
          by_cases hc2 : ∃ j2, k' = natKey j2
          · obtain ⟨j2, rfl⟩ := hc2
            rw [childGet_arr, childGet_arr]
            exact List.getElem?_set_ne (fun he => h (by rw [he]))
          · rw [childGet_arr_nonkey _ _ (fun j2 he => hc2 ⟨j2, he⟩),
               childGet_arr_nonkey _ _ (fun j2 he => hc2 ⟨j2, he⟩)]
        · rw [setArrElts_out c l 0 j (by omega)]
      · rw [setArrElts_nonkey c l 0 k (fun j he => hcanon ⟨j, he⟩)]
  | null => rfl
  | bool b => rfl
  | num n => rfl
  | str s => rfl
  | fn fk => rfl



theorem splitSlash_cons_eq (c : Char) (rest : List Char) (h : List Char)
    (t : List (List Char)) (hs : splitSlash rest = h :: t) :
    splitSlash (c :: rest) =
      if c = '/' then [] :: h :: t else (c :: h) :: t := by
  unfold splitSlash
  rw [hs]

theorem splitSlash_ne_nil (l : List Char) : splitSlash l ≠ [] := by
  induction l with
  | nil => simp [splitSlash]
  | cons c rest ih =>
      cases hs : splitSlash rest with
      | nil => exact absurd hs ih
      | cons h t =>
          rw [splitSlash_cons_eq c rest h t hs]
          split <;> simp

theorem splitSlash_no_slash (l : List Char) (h : '/' ∉ l) :
    splitSlash l = [l] := by
  induction l with
  | nil => rfl
  | cons c rest ih =>
      have hc : c ≠ '/' := fun he => h (by simp [he])
      have hr : '/' ∉ rest := fun hm => h (by simp [hm])
      rw [splitSlash_cons_eq c rest rest [] (ih hr)]
      simp [hc]

theorem splitSlash_append (a b : List Char) :
    splitSlash (a ++ '/' :: b) = splitSlash a ++ splitSlash b := by
  induction a with
  | nil =>
      simp only [List.nil_append]
      cases hs : splitSlash b with
      | nil => exact absurd hs (splitSlash_ne_nil b)
      | cons h t =>
          rw [splitSlash_cons_eq '/' b h t hs]
          simp [splitSlash]
  | cons c a ih =>
      cases hs : splitSlash a with
      | nil => exact absurd hs (splitSlash_ne_nil a)
      | cons h t =>
          cases hs2 : splitSlash (a ++ '/' :: b) with
          | nil => exact absurd hs2 (splitSlash_ne_nil _)
          | cons h2 t2 =>
              have base : h2 :: t2 = (h :: t) ++ splitSlash b := by
                rw [← hs2, ih, hs]
              rw [show (c :: a) ++ '/' :: b = c :: (a ++ '/' :: b) from rfl]
              rw [splitSlash_cons_eq c (a ++ '/' :: b) h2 t2 hs2,
                  splitSlash_cons_eq c a h t hs]
              simp only [List.cons_append] at base
              have hh : h2 = h := (List.cons.injEq _ _ _ _).mp base |>.1
              have ht : t2 = t ++ splitSlash b :=
                (List.cons.injEq _ _ _ _).mp base |>.2
              subst hh
              subst ht
              split <;> simp

/-- Inverse of the split: interleave the separator back. -/
def unsplit : List (List Char) → List Char
  | [] => []
  | [x] => x
  | x :: xs => x ++ '/' :: unsplit xs

theorem unsplit_splitSlash (l : List Char) : unsplit (splitSlash l) = l := by
  induction l with
  | nil => rfl
  | cons c rest ih =>
      cases hs : splitSlash rest with
      | nil => exact absurd hs (splitSlash_ne_nil rest)
      | cons h t =>
          rw [hs] at ih
          rw [splitSlash_cons_eq c rest h t hs]
          by_cases hc : c = '/'
          · subst hc
            simp only [if_pos rfl]
            show ([] : List Char) ++ '/' :: unsplit (h :: t) = '/' :: rest
            rw [ih]
            rfl
          · rw [if_neg hc]
            cases t with
            | nil =>
                show c :: h = c :: rest
                simp only [unsplit] at ih
                rw [ih]
            | cons y ys =>
                show (c :: h) ++ '/' :: unsplit (y :: ys) = c :: rest
                simp only [unsplit] at ih ⊢
                rw [List.cons_append, ih]

theorem splitSlash_inj : Function.Injective splitSlash := by
  intro a b h
  have h2 := congrArg unsplit h
  rwa [unsplit_splitSlash, unsplit_splitSlash] at h2

theorem splitSlashStr_inj : Function.Injective splitSlashStr := by
  intro a b h
  unfold splitSlashStr at h
  have hmk : Function.Injective (fun l : List Char => (⟨l⟩ : String)) := by
    intro x y hxy
    exact congrArg String.data hxy
  have h2 : splitSlash a.data = splitSlash b.data :=
    List.map_injective_iff.mpr hmk h
  have h3 : a.data = b.data := splitSlash_inj h2
  cases a
  cases b
  exact congrArg String.mk h3

theorem splitSlashStr_goodKey (k : String) (h : goodKey k = true) :
    splitSlashStr k = [k] := by
  simp only [goodKey, Bool.and_eq_true] at h
  have hns : '/' ∉ k.data := by
    have h2 := h.2
    simp at h2
    exact h2
  unfold splitSlashStr
  rw [splitSlash_no_slash k.data hns]
  simp

theorem joinPath_empty (k : String) : joinPath "" k = k := by
  simp [joinPath]

theorem joinPath_data (p k : String) (hp : p ≠ "") :
    (joinPath p k).data = p.data ++ '/' :: k.data := by
  have hl : p.length ≠ 0 := by
    intro h0
    apply hp
    have hd : p.data = [] := List.length_eq_zero.mp h0
    cases p
    simp only at hd
    rw [hd]
  simp only [joinPath, if_pos hl]
  show (p ++ "/" ++ k).data = p.data ++ '/' :: k.data
  simp [String.data_append]

theorem joinPath_ne_empty (p k : String) (hp : p ≠ "") :
    joinPath p k ≠ "" := by
  intro h
  have h2 := congrArg String.data h
  rw [joinPath_data p k hp] at h2
  simp at h2

theorem splitSlashStr_joinPath (p k : String) (hp : p ≠ "") :
    splitSlashStr (joinPath p k) = splitSlashStr p ++ splitSlashStr k := by
  unfold splitSlashStr
  rw [joinPath_data p k hp, splitSlash_append]
  simp

theorem foldl_joinPath_split (ks : List String) : ∀ p : String, p ≠ "" →
    (∀ k ∈ ks, goodKey k = true) →
    splitSlashStr (ks.foldl joinPath p) = splitSlashStr p ++ ks := by
  induction ks with
  | nil => intro p hp hg; simp
  | cons k ks ih =>
      intro p hp hg
      simp only [List.foldl_cons]
      rw [ih (joinPath p k) (joinPath_ne_empty p k hp)
            (fun x hx => hg x (by simp [hx]))]
      rw [splitSlashStr_joinPath p k hp,
          splitSlashStr_goodKey k (hg k (by simp))]
      simp

theorem goodKey_ne_empty (k : String) (h : goodKey k = true) : k ≠ "" := by
  simp only [goodKey, Bool.and_eq_true] at h
  simpa using h.1

theorem joinKeys_split (ks : List String) (hne : ks ≠ [])
    (hg : ∀ k ∈ ks, goodKey k = true) :
    splitSlashStr (ks.foldl joinPath "") = ks := by
  cases ks with
  | nil => exact absurd rfl hne
  | cons k ks =>
      simp only [List.foldl_cons, joinPath_empty]
      have hk : goodKey k = true := hg k (by simp)
      cases ks with
      | nil => simpa using splitSlashStr_goodKey k hk
      | cons k2 ks2 =>
          rw [foldl_joinPath_split (k2 :: ks2) k (goodKey_ne_empty k hk)
                (fun x hx => hg x (by simp [hx]))]
          rw [splitSlashStr_goodKey k hk]
          rfl

end JSChannel

namespace JSChannel

theorem aget_mem {α β : Type} [DecidableEq α] (l : List (α × β)) (k : α)
    (v : β) (h : aget l k = some v) : (k, v) ∈ l := by
  induction l with
  | nil => cases h
  | cons hd tl ih =>
      obtain ⟨k', v'⟩ := hd
      by_cases hk : k = k'
      · subst hk
        simp only [aget, if_pos rfl] at h
        cases h
        simp
      · simp only [aget, if_neg hk] at h
        exact List.mem_cons_of_mem _ (ih h)

theorem keysNodup_head {k : String} {rest : List String}
    (h : keysNodup (k :: rest) = true) : k ∉ rest ∧ keysNodup rest = true := by
  simp only [keysNodup, Bool.and_eq_true] at h
  refine ⟨fun hm => ?_, h.2⟩
  have := h.1
  simp at this
  exact this hm

theorem aget_of_mem_nodup (kvs : List (String × JSVal)) (k : String)
    (c : JSVal) (hnd : keysNodup (kvs.map Prod.fst) = true)
    (hm : (k, c) ∈ kvs) : aget kvs k = some c := by
  induction kvs with
  | nil => cases hm
  | cons hd tl ih =>
      obtain ⟨k', c'⟩ := hd
      simp only [List.map_cons] at hnd
      obtain ⟨hk', hnd'⟩ := keysNodup_head hnd
      rcases List.mem_cons.mp hm with he | hm2
      · cases he
        simp [aget]
      · have hkne : k ≠ k' := by
          intro he
          subst he
          exact hk' (List.mem_map.mpr ⟨(k, c), hm2, rfl⟩)
        simp only [aget, if_neg hkne]
        exact ih hnd' hm2

theorem aget_arrEntries_inv (l : List JSVal) (i : Nat) (k : String)
    (c : JSVal) (h : aget (arrEntries i l) k = some c) :
    ∃ j, i ≤ j ∧ j - i < l.length ∧ k = natKey j ∧ l[j - i]? = some c := by
  induction l generalizing i with
  | nil => cases h
  | cons v rest ih =>
      simp only [arrEntries, aget] at h
      by_cases hk : k = natKey i
      · rw [if_pos hk] at h
        cases h
        exact ⟨i, by omega, by simp, hk, by simp⟩
      · rw [if_neg hk] at h
        obtain ⟨j, h1, h2, h3, h4⟩ := ih (i + 1) h
        refine ⟨j, by omega, by simp; omega, h3, ?_⟩
        have : j - i = (j - (i + 1)) + 1 := by omega
        rw [this]
        simpa using h4

theorem childGet_arr_inv (l : List JSVal) (k : String) (c : JSVal)
    (h : childGet (.arr l) k = some c) :
    ∃ j, j < l.length ∧ k = natKey j ∧ l[j]? = some c := by
  simp only [childGet, childKeys] at h
  obtain ⟨j, h1, h2, h3, h4⟩ := aget_arrEntries_inv l 0 k c h
  exact ⟨j, by omega, h3, by simpa using h4⟩

theorem lookupKeys_append (v : JSVal) (a b : List String) :
    lookupKeys v (a ++ b) =
      match lookupKeys v a with
      | some c => lookupKeys c b
      | none => none := by
  induction a generalizing v with
  | nil => simp [lookupKeys]
  | cons k a ih =>
      simp only [List.cons_append, lookupKeys]
      cases childGet v k with
      | none => rfl
      | some c => exact ih c

theorem goodTree_obj {kvs : List (String × JSVal)}
    (h : goodTree (.obj kvs) = true) :
    keysNodup (kvs.map Prod.fst) = true ∧ goodEntries kvs = true := by
  simpa [goodTree, Bool.and_eq_true] using h

theorem goodEntries_mem {kvs : List (String × JSVal)} {k : String}
    {c : JSVal} (h : goodEntries kvs = true) (hm : (k, c) ∈ kvs) :
    goodKey k = true ∧ goodTree c = true := by
  induction kvs with
  | nil => cases hm
  | cons hd tl ih =>
      obtain ⟨k', c'⟩ := hd
      simp only [goodEntries, Bool.and_eq_true] at h
      rcases List.mem_cons.mp hm with he | hm2
      · cases he
        exact ⟨h.1.1, h.1.2⟩
      · exact ih h.2 hm2

theorem goodElts_get {l : List JSVal} {j : Nat} {c : JSVal}
    (h : goodElts l = true) (hg : l[j]? = some c) : goodTree c = true := by
  induction l generalizing j with
  | nil => cases hg
  | cons v rest ih =>
      simp only [goodElts, Bool.and_eq_true] at h
      cases j with
      | zero =>
          simp at hg
          subst hg
          exact h.1
      | succ j =>
          simp at hg
          exact ih h.2 (by simpa using hg)

end JSChannel

namespace JSChannel

mutual

/-- The key lists of the callables of a value, in discovery order (the
proof-side mirror of `pruneFunctions`, before slash-joining). -/
def fnKeyPathsVal : JSVal → List (List String × FnKind)
  | .obj kvs => fnKeyPathsEntries kvs
  | .arr l => fnKeyPathsElts 0 l
  | _ => []

/-- Callable key lists contributed by object entries. -/
def fnKeyPathsEntries : List (String × JSVal) → List (List String × FnKind)
  | [] => []
  | (k, c) :: rest =>
      (match c with
       | .fn fk => [([k], fk)]
       | .obj o => (fnKeyPathsEntries o).map (fun (q : List String × FnKind) => (k :: q.1, q.2))
       | .arr a => (fnKeyPathsElts 0 a).map (fun (q : List String × FnKind) => (k :: q.1, q.2))
       | _ => []) ++ fnKeyPathsEntries rest

/-- Callable key lists contributed by array elements from index `i` on. -/
def fnKeyPathsElts (i : Nat) : List JSVal → List (List String × FnKind)
  | [] => []
  | c :: rest =>
      (match c with
       | .fn fk => [([natKey i], fk)]
       | .obj o => (fnKeyPathsEntries o).map (fun (q : List String × FnKind) => (natKey i :: q.1, q.2))
       | .arr a => (fnKeyPathsElts 0 a).map (fun (q : List String × FnKind) => (natKey i :: q.1, q.2))
       | _ => []) ++ fnKeyPathsElts (i + 1) rest

end

theorem pruneEntries_snd (path : String) (kvs : List (String × JSVal))
    (ih : ∀ kv ∈ kvs, ∀ p : String, (pruneVal p kv.2).2 =
      (fnKeyPathsVal kv.2).map (fun q => (q.1.foldl joinPath p, q.2))) :
    (pruneEntries path kvs).2 =
      (fnKeyPathsEntries kvs).map
        (fun q => (q.1.foldl joinPath path, q.2)) := by
  induction kvs with
  | nil => simp [pruneEntries, fnKeyPathsEntries]
  | cons hd rest ihl =>
      obtain ⟨k, c⟩ := hd
      have htail := ihl (fun kv hkv => ih kv (List.mem_cons_of_mem _ hkv))
      have hchild := ih (k, c) (by simp)
      cases c with
      | fn fk =>
          simp only [pruneEntries, fnKeyPathsEntries, List.map_append,
            List.map_cons]
          rw [htail]
          simp
      | obj o =>
          simp only [pruneEntries, fnKeyPathsEntries, List.map_append]
          rw [htail]
          have h2 : (pruneEntries (joinPath path k) o).2 =
              (fnKeyPathsEntries o).map
                (fun q => (q.1.foldl joinPath (joinPath path k), q.2)) := by
            have := hchild (joinPath path k)
            simpa [pruneVal, fnKeyPathsVal] using this
          rw [h2, List.map_map]
          rfl
      | arr a =>
          simp only [pruneEntries, fnKeyPathsEntries, List.map_append]
          rw [htail]
          have h2 : (pruneElts (joinPath path k) 0 a).2 =
              (fnKeyPathsElts 0 a).map
                (fun q => (q.1.foldl joinPath (joinPath path k), q.2)) := by
            have := hchild (joinPath path k)
            simpa [pruneVal, fnKeyPathsVal] using this
          rw [h2, List.map_map]
          rfl
      | null => simp only [pruneEntries, fnKeyPathsEntries, List.map_append,
            List.map_nil, List.nil_append]; rw [htail]
      | bool b => simp only [pruneEntries, fnKeyPathsEntries,
            List.map_append, List.map_nil, List.nil_append]; rw [htail]
      | num n => simp only [pruneEntries, fnKeyPathsEntries,
            List.map_append, List.map_nil, List.nil_append]; rw [htail]
      | str s => simp only [pruneEntries, fnKeyPathsEntries,
            List.map_append, List.map_nil, List.nil_append]; rw [htail]

theorem pruneElts_snd (path : String) (l : List JSVal) : ∀ i : Nat,
    (∀ c ∈ l, ∀ p : String, (pruneVal p c).2 =
      (fnKeyPathsVal c).map (fun q => (q.1.foldl joinPath p, q.2))) →
    (pruneElts path i l).2 =
      (fnKeyPathsElts i l).map
        (fun q => (q.1.foldl joinPath path, q.2)) := by
  induction l with
  | nil => intro i ih; simp [pruneElts, fnKeyPathsElts]
  | cons c rest ihl =>
      intro i ih
      have htail := ihl (i + 1) (fun x hx => ih x (List.mem_cons_of_mem _ hx))
      have hchild := ih c (by simp)
      cases c with
      | fn fk =>
          simp only [pruneElts, fnKeyPathsElts, List.map_append,
            List.map_cons]
          rw [htail]
          simp
      | obj o =>
          simp only [pruneElts, fnKeyPathsElts, List.map_append]
          rw [htail]
          have h2 : (pruneEntries (joinPath path (natKey i)) o).2 =
              (fnKeyPathsEntries o).map
                (fun q =>
                  (q.1.foldl joinPath (joinPath path (natKey i)), q.2)) := by
            have := hchild (joinPath path (natKey i))
            simpa [pruneVal, fnKeyPathsVal] using this
          rw [h2, List.map_map]
          rfl
      | arr a =>
          simp only [pruneElts, fnKeyPathsElts, List.map_append]
          rw [htail]
          have h2 : (pruneElts (joinPath path (natKey i)) 0 a).2 =
              (fnKeyPathsElts 0 a).map
                (fun q =>
                  (q.1.foldl joinPath (joinPath path (natKey i)), q.2)) := by
            have := hchild (joinPath path (natKey i))
            simpa [pruneVal, fnKeyPathsVal] using this
          rw [h2, List.map_map]
          rfl
      | null => simp only [pruneElts, fnKeyPathsElts, List.map_append,
            List.map_nil, List.nil_append]; rw [htail]
      | bool b => simp only [pruneElts, fnKeyPathsElts, List.map_append,
            List.map_nil, List.nil_append]; rw [htail]
      | num n => simp only [pruneElts, fnKeyPathsElts, List.map_append,
            List.map_nil, List.nil_append]; rw [htail]
      | str s => simp only [pruneElts, fnKeyPathsElts, List.map_append,
            List.map_nil, List.nil_append]; rw [htail]

/-- The path side table built by `pruneFunctions` is exactly the
slash-joining of the callables' key lists. -/
theorem pruneVal_snd (v : JSVal) : ∀ path : String,
    (pruneVal path v).2 =
      (fnKeyPathsVal v).map (fun q => (q.1.foldl joinPath path, q.2)) := by
  induction v using JSVal.inductionOn with
  | hnull => intro path; rfl
  | hbool b => intro path; rfl
  | hnum n => intro path; rfl
  | hstr s => intro path; rfl
  | hfn k => intro path; rfl
  | harr l ih =>
      intro path
      have := pruneElts_snd path l 0 (fun c hc => ih c hc)
      simpa [pruneVal, fnKeyPathsVal] using this
  | hobj kvs ih =>
      intro path
      have := pruneEntries_snd path kvs (fun kv hkv => ih kv hkv)
      simpa [pruneVal, fnKeyPathsVal] using this

end JSChannel

namespace JSChannel

/-- Shape of one callable location relative to the value it sits in. -/
def LocStep (c : JSVal) (ks' : List String) (fk : FnKind) : Prop :=
  (c = .fn fk ∧ ks' = []) ∨
  (∃ o, c = .obj o ∧ (ks', fk) ∈ fnKeyPathsEntries o) ∨
  (∃ a, c = .arr a ∧ (ks', fk) ∈ fnKeyPathsElts 0 a)

theorem fnKeyPathsEntries_nil :
    fnKeyPathsEntries [] = [] := by
  unfold fnKeyPathsEntries
  rfl

theorem fnKeyPathsElts_nil (i : Nat) : fnKeyPathsElts i [] = [] := by
  unfold fnKeyPathsElts
  rfl

theorem fnKeyPathsEntries_inv (kvs : List (String × JSVal))
    (ks : List String) (fk : FnKind)
    (h : (ks, fk) ∈ fnKeyPathsEntries kvs) :
    ∃ k c ks', (k, c) ∈ kvs ∧ ks = k :: ks' ∧ LocStep c ks' fk := by
  induction kvs with
  | nil => rw [fnKeyPathsEntries_nil] at h; cases h
  | cons hd rest ih =>
      obtain ⟨k, c⟩ := hd
      have step : ∀ h2 : (ks, fk) ∈ fnKeyPathsEntries rest,
          ∃ k2 c2 ks', (k2, c2) ∈ (k, c) :: rest ∧ ks = k2 :: ks' ∧
            LocStep c2 ks' fk := by
        intro h2
        obtain ⟨k2, c2, ks', hm, he, hs⟩ := ih h2
        exact ⟨k2, c2, ks', List.mem_cons_of_mem _ hm, he, hs⟩
      cases c with
      | fn fk2 =>
          simp only [fnKeyPathsEntries, List.mem_append] at h
          rcases h with h | h
          · simp at h
            exact ⟨k, .fn fk2, [], by simp, by simp [h.1],
              Or.inl ⟨by rw [h.2], rfl⟩⟩
          · exact step h
      | obj o =>
          simp only [fnKeyPathsEntries, List.mem_append] at h
          rcases h with h | h
          · simp only [List.mem_map] at h
            obtain ⟨q, hq, he⟩ := h
            have he1 : k :: q.1 = ks := congrArg Prod.fst he
            have he2 : q.2 = fk := congrArg Prod.snd he
            refine ⟨k, .obj o, q.1, by simp, he1.symm, ?_⟩
            refine Or.inr (Or.inl ⟨o, rfl, ?_⟩)
            rw [show (q.1, fk) = q from Prod.ext rfl he2.symm]
            exact hq
          · exact step h
      | arr a =>
          simp only [fnKeyPathsEntries, List.mem_append] at h
          rcases h with h | h
          · simp only [List.mem_map] at h
            obtain ⟨q, hq, he⟩ := h
            have he1 : k :: q.1 = ks := congrArg Prod.fst he
            have he2 : q.2 = fk := congrArg Prod.snd he
            refine ⟨k, .arr a, q.1, by simp, he1.symm, ?_⟩
            refine Or.inr (Or.inr ⟨a, rfl, ?_⟩)
            rw [show (q.1, fk) = q from Prod.ext rfl he2.symm]
            exact hq
          · exact step h
      | null =>
          simp only [fnKeyPathsEntries, List.nil_append] at h
          exact step h
      | bool b =>
          simp only [fnKeyPathsEntries, List.nil_append] at h
          exact step h
      | num n =>
          simp only [fnKeyPathsEntries, List.nil_append] at h
          exact step h
      | str s2 =>
          simp only [fnKeyPathsEntries, List.nil_append] at h
          exact step h

theorem fnKeyPathsElts_inv (l : List JSVal) : ∀ (i : Nat) (ks : List String)
    (fk : FnKind), (ks, fk) ∈ fnKeyPathsElts i l →
    ∃ j c ks', j < l.length ∧ l[j]? = some c ∧ ks = natKey (i + j) :: ks' ∧
      LocStep c ks' fk := by
  induction l with
  | nil => intro i ks fk h; rw [fnKeyPathsElts_nil] at h; cases h
  | cons c rest ih =>
      intro i ks fk h
      have step : ∀ h2 : (ks, fk) ∈ fnKeyPathsElts (i + 1) rest,
          ∃ j c2 ks', j < (c :: rest).length ∧ (c :: rest)[j]? = some c2 ∧
            ks = natKey (i + j) :: ks' ∧ LocStep c2 ks' fk := by
        intro h2
        obtain ⟨j, c2, ks', hj, hg, he, hs⟩ := ih (i + 1) ks fk h2
        refine ⟨j + 1, c2, ks', by simp; omega, by simpa using hg, ?_, hs⟩
        rw [he]
        have harith : i + 1 + j = i + (j + 1) := by omega
        rw [harith]
      cases c with
      | fn fk2 =>
          simp only [fnKeyPathsElts, List.mem_append] at h
          rcases h with h | h
          · simp at h
            exact ⟨0, .fn fk2, [], by simp, by simp, by simp [h.1],
              Or.inl ⟨by rw [h.2], rfl⟩⟩
          · exact step h
      | obj o =>
          simp only [fnKeyPathsElts, List.mem_append] at h
          rcases h with h | h
          · simp only [List.mem_map] at h
            obtain ⟨q, hq, he⟩ := h
            have he1 : natKey i :: q.1 = ks := congrArg Prod.fst he
            have he2 : q.2 = fk := congrArg Prod.snd he
            refine ⟨0, .obj o, q.1, by simp, by simp, by rw [← he1]; simp, ?_⟩
            refine Or.inr (Or.inl ⟨o, rfl, ?_⟩)
            rw [show (q.1, fk) = q from Prod.ext rfl he2.symm]
            exact hq
          · exact step h
      | arr a =>
          simp only [fnKeyPathsElts, List.mem_append] at h
          rcases h with h | h
          · simp only [List.mem_map] at h
            obtain ⟨q, hq, he⟩ := h
            have he1 : natKey i :: q.1 = ks := congrArg Prod.fst he
            have he2 : q.2 = fk := congrArg Prod.snd he
            refine ⟨0, .arr a, q.1, by simp, by simp, by rw [← he1]; simp, ?_⟩
            refine Or.inr (Or.inr ⟨a, rfl, ?_⟩)
            rw [show (q.1, fk) = q from Prod.ext rfl he2.symm]
            exact hq
          · exact step h
      | null =>
          simp only [fnKeyPathsElts, List.nil_append] at h
          exact step h
      | bool b =>
          simp only [fnKeyPathsElts, List.nil_append] at h
          exact step h
      | num n =>
          simp only [fnKeyPathsElts, List.nil_append] at h
          exact step h
      | str s2 =>
          simp only [fnKeyPathsElts, List.nil_append] at h
          exact step h

theorem fnKeyPathsEntries_fwd (kvs : List (String × JSVal)) (k : String)
    (c : JSVal) (ks' : List String) (fk : FnKind)
    (hm : (k, c) ∈ kvs) (hs : LocStep c ks' fk) :
    (k :: ks', fk) ∈ fnKeyPathsEntries kvs := by
  induction kvs with
  | nil => cases hm
  | cons hd rest ih =>
      obtain ⟨k2, c2⟩ := hd
      rcases List.mem_cons.mp hm with he | hm2
      · cases he
        rcases hs with ⟨he2, hks⟩ | ⟨o, he2, hmem⟩ | ⟨a, he2, hmem⟩
        · subst he2
          subst hks
          simp [fnKeyPathsEntries]
        · subst he2
          simp only [fnKeyPathsEntries, List.mem_append, List.mem_map]
          exact Or.inl ⟨(ks', fk), hmem, rfl⟩
        · subst he2
          simp only [fnKeyPathsEntries, List.mem_append, List.mem_map]
          exact Or.inl ⟨(ks', fk), hmem, rfl⟩
      · have htail := ih hm2
        cases c2 with
        | fn fk2 => simp only [fnKeyPathsEntries, List.mem_append]
                    exact Or.inr htail
        | obj o => simp only [fnKeyPathsEntries, List.mem_append]
                   exact Or.inr htail
        | arr a => simp only [fnKeyPathsEntries, List.mem_append]
                   exact Or.inr htail
        | null => simpa only [fnKeyPathsEntries, List.nil_append] using htail
        | bool b => simpa only [fnKeyPathsEntries, List.nil_append] using htail
        | num n => simpa only [fnKeyPathsEntries, List.nil_append] using htail
        | str s2 => simpa only [fnKeyPathsEntries, List.nil_append] using htail

theorem fnKeyPathsElts_fwd (l : List JSVal) : ∀ (i j : Nat) (c : JSVal)
    (ks' : List String) (fk : FnKind), l[j]? = some c →
    LocStep c ks' fk →
    (natKey (i + j) :: ks', fk) ∈ fnKeyPathsElts i l := by
  induction l with
  | nil => intro i j c ks' fk hg; cases hg
  | cons x rest ih =>
      intro i j c ks' fk hg hs
      cases j with
      | zero =>
          simp at hg
          subst hg
          rcases hs with ⟨he2, hks⟩ | ⟨o, he2, hmem⟩ | ⟨a, he2, hmem⟩
          · subst he2
            subst hks
            simp [fnKeyPathsElts]
          · subst he2
            simp only [fnKeyPathsElts, List.mem_append, List.mem_map]
            exact Or.inl ⟨(ks', fk), hmem, by simp⟩
          · subst he2
            simp only [fnKeyPathsElts, List.mem_append, List.mem_map]
            exact Or.inl ⟨(ks', fk), hmem, by simp⟩
      | succ j =>
          have htail := ih (i + 1) j c ks' fk (by simpa using hg) hs
          have harith : i + 1 + j = i + (j + 1) := by omega
          rw [harith] at htail
          cases x with
          | fn fk2 => simp only [fnKeyPathsElts, List.mem_append]
                      exact Or.inr htail
          | obj o => simp only [fnKeyPathsElts, List.mem_append]
                     exact Or.inr htail
          | arr a => simp only [fnKeyPathsElts, List.mem_append]
                     exact Or.inr htail
          | null => simpa only [fnKeyPathsElts, List.nil_append] using htail
          | bool b => simpa only [fnKeyPathsElts, List.nil_append] using htail
          | num n => simpa only [fnKeyPathsElts, List.nil_append] using htail
          | str s2 => simpa only [fnKeyPathsElts, List.nil_append] using htail

end JSChannel

namespace JSChannel

theorem childGet_scalar_none (v : JSVal) (k : String)
    (h : (∀ kvs, v ≠ .obj kvs) ∧ (∀ l, v ≠ .arr l)) :
    childGet v k = none := by
  cases v with
  | obj kvs => exact absurd rfl (h.1 kvs)
  | arr l => exact absurd rfl (h.2 l)
  | null => rfl
  | bool b => rfl
  | num n => rfl
  | str s => rfl
  | fn fk => rfl

theorem getElem?_mem_list {l : List JSVal} {j : Nat} {c : JSVal}
    (h : l[j]? = some c) : c ∈ l := by
  induction l generalizing j with
  | nil => cases h
  | cons x rest ih =>
      cases j with
      | zero => simp at h; subst h; simp
      | succ j =>
          simp at h
          exact List.mem_cons_of_mem _ (ih (by simpa using h))

theorem lookup_of_fnKeyPaths (v : JSVal) :
    ∀ ks fk, goodTree v = true → (ks, fk) ∈ fnKeyPathsVal v →
    lookupKeys v ks = some (.fn fk) := by
  induction v using JSVal.inductionOn with
  | hnull => intro ks fk _ h; cases h
  | hbool b => intro ks fk _ h; cases h
  | hnum n => intro ks fk _ h; cases h
  | hstr s => intro ks fk _ h; cases h
  | hfn k => intro ks fk _ h; cases h
  | hobj kvs ih =>
      intro ks fk hg h
      obtain ⟨hnd, hge⟩ := goodTree_obj hg
      obtain ⟨k, c, ks', hm, he, hs⟩ := fnKeyPathsEntries_inv kvs ks fk h
      subst he
      have hag : aget kvs k = some c := aget_of_mem_nodup kvs k c hnd hm
      simp only [lookupKeys, childGet, childKeys, hag]
      rcases hs with ⟨he2, hks⟩ | ⟨o, he2, hmem⟩ | ⟨a, he2, hmem⟩
      · subst he2; subst hks; rfl
      · subst he2
        have hgc := (goodEntries_mem hge hm).2
        exact ih (k, .obj o) hm ks' fk hgc hmem
      · subst he2
        have hgc := (goodEntries_mem hge hm).2
        exact ih (k, .arr a) hm ks' fk hgc hmem
  | harr l ih =>
      intro ks fk hg h
      obtain ⟨j, c, ks', hj, hgj, he, hs⟩ := fnKeyPathsElts_inv l 0 ks fk h
      subst he
      simp only [Nat.zero_add]
      have hcg : childGet (.arr l) (natKey j) = some c := by
        rw [childGet_arr]; exact hgj
      simp only [lookupKeys, hcg]
      have hgood : goodTree c = true := goodElts_get (by simpa [goodTree] using hg) hgj
      rcases hs with ⟨he2, hks⟩ | ⟨o, he2, hmem⟩ | ⟨a, he2, hmem⟩
      · subst he2; subst hks; rfl
      · subst he2
        exact ih (.obj o) (getElem?_mem_list hgj) ks' fk hgood hmem
      · subst he2
        exact ih (.arr a) (getElem?_mem_list hgj) ks' fk hgood hmem

theorem fnKeyPaths_of_lookup (v : JSVal) :
    ∀ ks fk, goodTree v = true → ks ≠ [] →
    lookupKeys v ks = some (.fn fk) → (ks, fk) ∈ fnKeyPathsVal v := by
  induction v using JSVal.inductionOn with
  | hnull => intro ks fk _ hne h
      <;> cases ks with
      | nil => exact absurd rfl hne
      | cons k ks' => simp [lookupKeys, childGet, childKeys, aget] at h
  | hbool b => intro ks fk _ hne h
      <;> cases ks with
      | nil => exact absurd rfl hne
      | cons k ks' => simp [lookupKeys, childGet, childKeys, aget] at h
  | hnum n => intro ks fk _ hne h
      <;> cases ks with
      | nil => exact absurd rfl hne
      | cons k ks' => simp [lookupKeys, childGet, childKeys, aget] at h
  | hstr s => intro ks fk _ hne h
      <;> cases ks with
      | nil => exact absurd rfl hne
      | cons k ks' => simp [lookupKeys, childGet, childKeys, aget] at h
  | hfn k2 => intro ks fk _ hne h
      <;> cases ks with
      | nil => exact absurd rfl hne
      | cons k ks' => simp [lookupKeys, childGet, childKeys, aget] at h
  | hobj kvs ih =>
      intro ks fk hg hne h
      obtain ⟨hnd, hge⟩ := goodTree_obj hg
      cases ks with
      | nil => exact absurd rfl hne
      | cons k ks' =>
          simp only [lookupKeys, childGet, childKeys] at h
          cases hag : aget kvs k with
          | none => rw [hag] at h; cases h
          | some c =>
              rw [hag] at h
              have hm : (k, c) ∈ kvs := aget_mem kvs k c hag
              show (k :: ks', fk) ∈ fnKeyPathsEntries kvs
              refine fnKeyPathsEntries_fwd kvs k c ks' fk hm ?_
              cases ks' with
              | nil =>
                  simp only [lookupKeys] at h
                  cases h
                  exact Or.inl ⟨rfl, rfl⟩
              | cons k2 rest =>
                  cases c with
                  | obj o =>
                      refine Or.inr (Or.inl ⟨o, rfl, ?_⟩)
                      exact ih (k, .obj o) hm (k2 :: rest) fk
                        (goodEntries_mem hge hm).2 (by simp) h
                  | arr a =>
                      refine Or.inr (Or.inr ⟨a, rfl, ?_⟩)
                      exact ih (k, .arr a) hm (k2 :: rest) fk
                        (goodEntries_mem hge hm).2 (by simp) h
                  | null => simp [lookupKeys, childGet, childKeys, aget] at h
                  | bool b => simp [lookupKeys, childGet, childKeys, aget] at h
                  | num n => simp [lookupKeys, childGet, childKeys, aget] at h
                  | str s => simp [lookupKeys, childGet, childKeys, aget] at h
                  | fn fk2 => simp [lookupKeys, childGet, childKeys, aget] at h
  | harr l ih =>
      intro ks fk hg hne h
      cases ks with
      | nil => exact absurd rfl hne
      | cons k ks' =>
          simp only [lookupKeys] at h
          cases hcg : childGet (.arr l) k with
          | none => rw [hcg] at h; cases h
          | some c =>
              rw [hcg] at h
              obtain ⟨j, hj, hk, hgj⟩ := childGet_arr_inv l k c hcg
              subst hk
              show (natKey j :: ks', fk) ∈ fnKeyPathsElts 0 l
              have := fnKeyPathsElts_fwd l 0 j c ks' fk hgj ?side
              · simpa using this
              case side =>
                cases ks' with
                | nil =>
                    simp only [lookupKeys] at h
                    cases h
                    exact Or.inl ⟨rfl, rfl⟩
                | cons k2 rest =>
                    have hgood : goodTree c = true :=
                      goodElts_get (by simpa [goodTree] using hg) hgj
                    cases c with
                    | obj o =>
                        refine Or.inr (Or.inl ⟨o, rfl, ?_⟩)
                        exact ih (.obj o) (getElem?_mem_list hgj)
                          (k2 :: rest) fk hgood (by simp) h
                    | arr a =>
                        refine Or.inr (Or.inr ⟨a, rfl, ?_⟩)
                        exact ih (.arr a) (getElem?_mem_list hgj)
                          (k2 :: rest) fk hgood (by simp) h
                    | null => simp [lookupKeys, childGet, childKeys, aget] at h
                    | bool b => simp [lookupKeys, childGet, childKeys, aget] at h
                    | num n => simp [lookupKeys, childGet, childKeys, aget] at h
                    | str s => simp [lookupKeys, childGet, childKeys, aget] at h
                    | fn fk2 => simp [lookupKeys, childGet, childKeys, aget] at h

end JSChannel

namespace JSChannel

theorem fnKeyPaths_good (v : JSVal) :
    ∀ ks fk, goodTree v = true → (ks, fk) ∈ fnKeyPathsVal v →
    ks ≠ [] ∧ ∀ k ∈ ks, goodKey k = true := by
  induction v using JSVal.inductionOn with
  | hnull => intro ks fk _ h; cases h
  | hbool b => intro ks fk _ h; cases h
  | hnum n => intro ks fk _ h; cases h
  | hstr s => intro ks fk _ h; cases h
  | hfn k => intro ks fk _ h; cases h
  | hobj kvs ih =>
      intro ks fk hg h
      obtain ⟨hnd, hge⟩ := goodTree_obj hg
      obtain ⟨k, c, ks', hm, he, hs⟩ := fnKeyPathsEntries_inv kvs ks fk h
      subst he
      have hk : goodKey k = true := (goodEntries_mem hge hm).1
      have hgc : goodTree c = true := (goodEntries_mem hge hm).2
      refine ⟨by simp, ?_⟩
      intro k2 hk2
      rcases List.mem_cons.mp hk2 with he2 | hm2
      · subst he2; exact hk
      · rcases hs with ⟨he2, hks⟩ | ⟨o, he2, hmem⟩ | ⟨a, he2, hmem⟩
        · subst hks; cases hm2
        · subst he2
          exact (ih (k, .obj o) hm ks' fk hgc hmem).2 k2 hm2
        · subst he2
          exact (ih (k, .arr a) hm ks' fk hgc hmem).2 k2 hm2
  | harr l ih =>
      intro ks fk hg h
      obtain ⟨j, c, ks', hj, hgj, he, hs⟩ := fnKeyPathsElts_inv l 0 ks fk h
      subst he
      have hgc : goodTree c = true :=
        goodElts_get (by simpa [goodTree] using hg) hgj
      refine ⟨by simp, ?_⟩
      intro k2 hk2
      rcases List.mem_cons.mp hk2 with he2 | hm2
      · subst he2; exact goodKey_natKey _
      · rcases hs with ⟨he2, hks⟩ | ⟨o, he2, hmem⟩ | ⟨a, he2, hmem⟩
        · subst hks; cases hm2
        · subst he2
          exact (ih (.obj o) (getElem?_mem_list hgj) ks' fk hgc hmem).2 k2 hm2
        · subst he2
          exact (ih (.arr a) (getElem?_mem_list hgj) ks' fk hgc hmem).2 k2 hm2

/-- First component of every emitted key list of an entry block. -/
theorem fnKeyPaths_head_entries (kvs : List (String × JSVal))
    (q : List String × FnKind) (h : q ∈ fnKeyPathsEntries kvs) :
    ∃ k ks', q.1 = k :: ks' ∧ k ∈ kvs.map Prod.fst := by
  obtain ⟨k, c, ks', hm, he, _⟩ := fnKeyPathsEntries_inv kvs q.1 q.2 (by
    simpa using h)
  exact ⟨k, ks', he, List.mem_map.mpr ⟨(k, c), hm, rfl⟩⟩

theorem fnKeyPaths_head_elts (l : List JSVal) (i : Nat)
    (q : List String × FnKind) (h : q ∈ fnKeyPathsElts i l) :
    ∃ j ks', j < l.length ∧ q.1 = natKey (i + j) :: ks' := by
  obtain ⟨j, c, ks', hj, _, he, _⟩ := fnKeyPathsElts_inv l i q.1 q.2 (by
    simpa using h)
  exact ⟨j, ks', hj, he⟩

theorem headBlockEntries_first (k : String) (c : JSVal)
    (a : List String × FnKind)
    (ha : a ∈ (match c with
       | JSVal.fn fk => [([k], fk)]
       | JSVal.obj o => (fnKeyPathsEntries o).map (fun (q : List String × FnKind) => (k :: q.1, q.2))
       | JSVal.arr l => (fnKeyPathsElts 0 l).map (fun (q : List String × FnKind) => (k :: q.1, q.2))
       | _ => ([] : List (List String × FnKind)))) :
    ∃ ks', a.1 = k :: ks' := by
  cases c with
  | fn fk =>
      simp only [List.mem_singleton] at ha
      exact ⟨[], by rw [ha]⟩
  | obj o =>
      simp only [List.mem_map] at ha
      obtain ⟨q, hqm, he⟩ := ha
      exact ⟨q.1, (congrArg Prod.fst he).symm⟩
  | arr l =>
      simp only [List.mem_map] at ha
      obtain ⟨q, hqm, he⟩ := ha
      exact ⟨q.1, (congrArg Prod.fst he).symm⟩
  | null => cases ha
  | bool b => cases ha
  | num n => cases ha
  | str s => cases ha

theorem headBlockElts_first (i : Nat) (c : JSVal)
    (a : List String × FnKind)
    (ha : a ∈ (match c with
       | JSVal.fn fk => [([natKey i], fk)]
       | JSVal.obj o =>
           (fnKeyPathsEntries o).map (fun (q : List String × FnKind) => (natKey i :: q.1, q.2))
       | JSVal.arr l =>
           (fnKeyPathsElts 0 l).map (fun (q : List String × FnKind) => (natKey i :: q.1, q.2))
       | _ => ([] : List (List String × FnKind)))) :
    ∃ ks', a.1 = natKey i :: ks' := by
  cases c with
  | fn fk =>
      simp only [List.mem_singleton] at ha
      exact ⟨[], by rw [ha]⟩
  | obj o =>
      simp only [List.mem_map] at ha
      obtain ⟨q, hqm, he⟩ := ha
      exact ⟨q.1, (congrArg Prod.fst he).symm⟩
  | arr l =>
      simp only [List.mem_map] at ha
      obtain ⟨q, hqm, he⟩ := ha
      exact ⟨q.1, (congrArg Prod.fst he).symm⟩
  | null => cases ha
  | bool b => cases ha
  | num n => cases ha
  | str s => cases ha

theorem fnKeyPaths_pairwise (v : JSVal) : goodTree v = true →
    List.Pairwise (fun a b : List String × FnKind => a.1 ≠ b.1)
      (fnKeyPathsVal v) := by
  induction v using JSVal.inductionOn with
  | hnull => intro _; simp [fnKeyPathsVal]
  | hbool b => intro _; simp [fnKeyPathsVal]
  | hnum n => intro _; simp [fnKeyPathsVal]
  | hstr s => intro _; simp [fnKeyPathsVal]
  | hfn k => intro _; simp [fnKeyPathsVal]
  | hobj kvs ih =>
      intro hg
      obtain ⟨hnd, hge⟩ := goodTree_obj hg
      show List.Pairwise _ (fnKeyPathsEntries kvs)
      clear hg
      induction kvs with
      | nil => rw [fnKeyPathsEntries_nil]; exact List.Pairwise.nil
      | cons hd rest ihl =>
          obtain ⟨k, c⟩ := hd
          simp only [List.map_cons] at hnd
          obtain ⟨hknr, hnd'⟩ := keysNodup_head hnd
          simp only [goodEntries, Bool.and_eq_true] at hge
          have htail := ihl (fun kv hkv => ih kv (List.mem_cons_of_mem _ hkv))
            hnd' hge.2
          have hcross : ∀ a ∈ (match c with
              | JSVal.fn fk => [([k], fk)]
              | JSVal.obj o =>
                  (fnKeyPathsEntries o).map (fun (q : List String × FnKind) => (k :: q.1, q.2))
              | JSVal.arr a => (fnKeyPathsElts 0 a).map
                  (fun (q : List String × FnKind) => (k :: q.1, q.2))
              | _ => ([] : List (List String × FnKind))),
              ∀ b ∈ fnKeyPathsEntries rest, a.1 ≠ b.1 := by
            intro a ha b hb
            obtain ⟨kb, ksb, heb, hmb⟩ := fnKeyPaths_head_entries rest b hb
            have hka : ∃ ksa, a.1 = k :: ksa :=
              headBlockEntries_first k c a ha
            obtain ⟨ksa, hea⟩ := hka
            rw [hea, heb]
            intro hcontra
            have : k = kb := (List.cons.injEq _ _ _ _).mp hcontra |>.1
            exact hknr (this ▸ hmb)
          have hhead : List.Pairwise
              (fun a b : List String × FnKind => a.1 ≠ b.1)
              (match c with
               | JSVal.fn fk => [([k], fk)]
               | JSVal.obj o =>
                   (fnKeyPathsEntries o).map (fun (q : List String × FnKind) => (k :: q.1, q.2))
               | JSVal.arr a => (fnKeyPathsElts 0 a).map
                   (fun (q : List String × FnKind) => (k :: q.1, q.2))
               | _ => ([] : List (List String × FnKind))) := by
            cases c with
            | fn fk => simp
            | obj o =>
                have hp := ih (k, .obj o) (by simp) hge.1.2
                simp only [fnKeyPathsVal] at hp
                refine List.Pairwise.map _ ?_ hp
                intro a b hne hcontra
                exact hne ((List.cons.injEq _ _ _ _).mp hcontra |>.2)
            | arr arr2 =>
                have hp := ih (k, .arr arr2) (by simp) hge.1.2
                simp only [fnKeyPathsVal] at hp
                refine List.Pairwise.map _ ?_ hp
                intro a b hne hcontra
                exact hne ((List.cons.injEq _ _ _ _).mp hcontra |>.2)
            | null => simp
            | bool b2 => simp
            | num n2 => simp
            | str s2 => simp
          show List.Pairwise _ (fnKeyPathsEntries ((k, c) :: rest))
          cases c <;>
            simp only [fnKeyPathsEntries] <;>
            rw [List.pairwise_append] <;>
            exact ⟨hhead, htail, hcross⟩
  | harr l ih =>
      intro hg
      show List.Pairwise _ (fnKeyPathsElts 0 l)
      have hge : goodElts l = true := by simpa [goodTree] using hg
      clear hg
      have main : ∀ i : Nat, List.Pairwise
          (fun a b : List String × FnKind => a.1 ≠ b.1)
          (fnKeyPathsElts i l) := by
        induction l with
        | nil => intro i; rw [fnKeyPathsElts_nil]; exact List.Pairwise.nil
        | cons c rest ihl =>
            intro i
            simp only [goodElts, Bool.and_eq_true] at hge
            have htail := ihl (fun x hx => ih x (List.mem_cons_of_mem _ hx))
              hge.2 (i + 1)
            have hcross : ∀ a ∈ (match c with
                | JSVal.fn fk => [([natKey i], fk)]
                | JSVal.obj o =>
                    (fnKeyPathsEntries o).map (fun (q : List String × FnKind) => (natKey i :: q.1, q.2))
                | JSVal.arr a => (fnKeyPathsElts 0 a).map
                    (fun (q : List String × FnKind) => (natKey i :: q.1, q.2))
                | _ => ([] : List (List String × FnKind))),
                ∀ b ∈ fnKeyPathsElts (i + 1) rest, a.1 ≠ b.1 := by
              intro a ha b hb
              obtain ⟨j, ksb, hj, heb⟩ := fnKeyPaths_head_elts rest (i + 1) b hb
              have hka : ∃ ksa, a.1 = natKey i :: ksa :=
                headBlockElts_first i c a ha
              obtain ⟨ksa, hea⟩ := hka
              rw [hea, heb]
              intro hcontra
              have hkey : natKey i = natKey (i + 1 + j) :=
                (List.cons.injEq _ _ _ _).mp hcontra |>.1
              have := natKey_inj hkey
              omega
            have hhead : List.Pairwise
                (fun a b : List String × FnKind => a.1 ≠ b.1)
                (match c with
                 | JSVal.fn fk => [([natKey i], fk)]
                 | JSVal.obj o => (fnKeyPathsEntries o).map
                     (fun (q : List String × FnKind) => (natKey i :: q.1, q.2))
                 | JSVal.arr a => (fnKeyPathsElts 0 a).map
                     (fun (q : List String × FnKind) => (natKey i :: q.1, q.2))
                 | _ => ([] : List (List String × FnKind))) := by
              cases c with
              | fn fk => simp
              | obj o =>
                  have hp := ih (.obj o) (by simp) hge.1
                  simp only [fnKeyPathsVal] at hp
                  refine List.Pairwise.map _ ?_ hp
                  intro a b hne hcontra
                  exact hne ((List.cons.injEq _ _ _ _).mp hcontra |>.2)
              | arr arr2 =>
                  have hp := ih (.arr arr2) (by simp) hge.1
                  simp only [fnKeyPathsVal] at hp
                  refine List.Pairwise.map _ ?_ hp
                  intro a b hne hcontra
                  exact hne ((List.cons.injEq _ _ _ _).mp hcontra |>.2)
              | null => simp
              | bool b2 => simp
              | num n2 => simp
              | str s2 => simp
            cases c <;>
              simp only [fnKeyPathsElts] <;>
              rw [List.pairwise_append] <;>
              exact ⟨hhead, htail, hcross⟩
      exact main 0

end JSChannel

namespace JSChannel

mutual

/-- Absence of callables anywhere in a value. -/
def fnFree : JSVal → Bool
  | .fn _ => false
  | .obj kvs => fnFreeEntries kvs
  | .arr l => fnFreeElts l
  | _ => true

/-- Absence of callables in a list of object entries. -/
def fnFreeEntries : List (String × JSVal) → Bool
  | [] => true
  | (_, c) :: rest => fnFree c && fnFreeEntries rest

/-- Absence of callables in a list of array elements. -/
def fnFreeElts : List JSVal → Bool
  | [] => true
  | c :: rest => fnFree c && fnFreeElts rest

end

theorem fnFreeEntries_prune (path : String) (kvs : List (String × JSVal))
    (ih : ∀ kv ∈ kvs, ∀ p : String, (∀ fk, kv.2 ≠ JSVal.fn fk) →
      fnFree (pruneVal p kv.2).1 = true) :
    fnFreeEntries (pruneEntries path kvs).1 = true := by
  induction kvs with
  | nil => simp [pruneEntries, fnFreeEntries]
  | cons hd rest ihl =>
      obtain ⟨k, c⟩ := hd
      have htail := ihl (fun kv hkv => ih kv (List.mem_cons_of_mem _ hkv))
      cases c with
      | fn fk => simpa [pruneEntries] using htail
      | obj o =>
          have hchild := ih (k, JSVal.obj o) (by simp)
          have h2 : fnFreeEntries (pruneEntries (joinPath path k) o).1
              = true := by
            have := hchild (joinPath path k)
              (fun fk h => JSVal.noConfusion h)
            simpa [pruneVal, fnFree] using this
          simp [pruneEntries, fnFreeEntries, fnFree, h2, htail]
      | arr a =>
          have hchild := ih (k, JSVal.arr a) (by simp)
          have h2 : fnFreeElts (pruneElts (joinPath path k) 0 a).1
              = true := by
            have := hchild (joinPath path k)
              (fun fk h => JSVal.noConfusion h)
            simpa [pruneVal, fnFree] using this
          simp [pruneEntries, fnFreeEntries, fnFree, h2, htail]
      | null => simp [pruneEntries, fnFreeEntries, fnFree, htail]
      | bool b => simp [pruneEntries, fnFreeEntries, fnFree, htail]
      | num n => simp [pruneEntries, fnFreeEntries, fnFree, htail]
      | str s => simp [pruneEntries, fnFreeEntries, fnFree, htail]

theorem fnFreeElts_prune (path : String) (l : List JSVal) : ∀ i : Nat,
    (∀ c ∈ l, ∀ p : String, (∀ fk, c ≠ JSVal.fn fk) →
      fnFree (pruneVal p c).1 = true) →
    fnFreeElts (pruneElts path i l).1 = true := by
  induction l with
  | nil => intro i ih; simp [pruneElts, fnFreeElts]
  | cons c rest ihl =>
      intro i ih
      have htail := ihl (i + 1) (fun x hx => ih x (List.mem_cons_of_mem _ hx))
      cases c with
      | fn fk => simp [pruneElts, fnFreeElts, fnFree, htail]
      | obj o =>
          have hchild := ih (JSVal.obj o) (by simp)
          have h2 : fnFreeEntries
              (pruneEntries (joinPath path (natKey i)) o).1 = true := by
            have := hchild (joinPath path (natKey i))
              (fun fk h => JSVal.noConfusion h)
            simpa [pruneVal, fnFree] using this
          simp [pruneElts, fnFreeElts, fnFree, h2, htail]
      | arr a =>
          have hchild := ih (JSVal.arr a) (by simp)
          have h2 : fnFreeElts
              (pruneElts (joinPath path (natKey i)) 0 a).1 = true := by
            have := hchild (joinPath path (natKey i))
              (fun fk h => JSVal.noConfusion h)
            simpa [pruneVal, fnFree] using this
          simp [pruneElts, fnFreeElts, fnFree, h2, htail]
      | null => simp [pruneElts, fnFreeElts, fnFree, htail]
      | bool b => simp [pruneElts, fnFreeElts, fnFree, htail]
      | num n => simp [pruneElts, fnFreeElts, fnFree, htail]
      | str s => simp [pruneElts, fnFreeElts, fnFree, htail]

/-- `pruneFunctions` removes every nested callable: provided the value is
not itself a bare callable (which the walk never enters), the pruned value
is callable free. -/
theorem fnFree_prune (v : JSVal) : ∀ path : String,
    (∀ fk, v ≠ JSVal.fn fk) → fnFree (pruneVal path v).1 = true := by
  induction v using JSVal.inductionOn with
  | hnull => intro path _; rfl
  | hbool b => intro path _; rfl
  | hnum n => intro path _; rfl
  | hstr s => intro path _; rfl
  | hfn k => intro path h; exact absurd rfl (h k)
  | harr l ih =>
      intro path _
      have := fnFreeElts_prune path l 0 (fun c hc => ih c hc)
      simpa [pruneVal, fnFree] using this
  | hobj kvs ih =>
      intro path _
      have := fnFreeEntries_prune path kvs (fun kv hkv => ih kv hkv)
      simpa [pruneVal, fnFree] using this

theorem fnFreeEntries_mem {kvs : List (String × JSVal)} {k : String}
    {c : JSVal} (h : fnFreeEntries kvs = true) (hm : (k, c) ∈ kvs) :
    fnFree c = true := by
  induction kvs with
  | nil => cases hm
  | cons hd tl ih =>
      obtain ⟨k2, c2⟩ := hd
      simp only [fnFreeEntries, Bool.and_eq_true] at h
      rcases List.mem_cons.mp hm with he | hm2
      · cases he; exact h.1
      · exact ih h.2 hm2

theorem fnFreeElts_mem {l : List JSVal} {c : JSVal}
    (h : fnFreeElts l = true) (hm : c ∈ l) : fnFree c = true := by
  induction l with
  | nil => cases hm
  | cons x tl ih =>
      simp only [fnFreeElts, Bool.and_eq_true] at h
      rcases List.mem_cons.mp hm with he | hm2
      · cases he; exact h.1
      · exact ih h.2 hm2

theorem fnFree_childGet {v : JSVal} {k : String} {c : JSVal}
    (hf : fnFree v = true) (h : childGet v k = some c) :
    fnFree c = true := by
  cases v with
  | obj kvs =>
      simp only [childGet, childKeys] at h
      exact fnFreeEntries_mem (by simpa [fnFree] using hf) (aget_mem _ _ _ h)
  | arr l =>
      obtain ⟨j, hj, hk, hgj⟩ := childGet_arr_inv l k c h
      exact fnFreeElts_mem (by simpa [fnFree] using hf)
        (getElem?_mem_list hgj)
  | null => simp [childGet, childKeys, aget] at h
  | bool b => simp [childGet, childKeys, aget] at h
  | num n => simp [childGet, childKeys, aget] at h
  | str s => simp [childGet, childKeys, aget] at h
  | fn fk => simp [childGet, childKeys, aget] at h

/-- No path of a callable-free value reaches a callable. -/
theorem lookup_fnFree : ∀ (ks : List String) (v : JSVal),
    fnFree v = true → ∀ fk : FnKind,
    lookupKeys v ks ≠ some (.fn fk) := by
  intro ks
  induction ks with
  | nil =>
      intro v hf fk h
      simp only [lookupKeys] at h
      cases h
      simp [fnFree] at hf
  | cons k rest ih =>
      intro v hf fk h
      simp only [lookupKeys] at h
      cases hcg : childGet v k with
      | none => rw [hcg] at h; cases h
      | some c =>
          rw [hcg] at h
          exact ih c (fnFree_childGet hf hcg) fk h

theorem splitSlashStr_ne_nil (p : String) : splitSlashStr p ≠ [] := by
  unfold splitSlashStr
  intro h
  exact splitSlash_ne_nil p.data (by simpa using h)

/-- `fnAtPath` of a callable-free value. -/
theorem fnAtPath_fnFree (v : JSVal) (p : String) (hf : fnFree v = true) :
    fnAtPath v p = none := by
  unfold fnAtPath
  cases hl : lookupKeys v (splitSlashStr p) with
  | none => rfl
  | some c =>
      cases c with
      | fn fk => exact absurd hl (lookup_fnFree _ v hf fk)
      | null => rfl
      | bool b => rfl
      | num n => rfl
      | str s => rfl
      | obj o => rfl
      | arr a => rfl

/-- No slash-joined path of the pruned value reaches a callable. -/
theorem fnAtPath_prune (v : JSVal) (path p : String) :
    fnAtPath (pruneVal path v).1 p = none := by
  cases v with
  | fn fk =>
      show fnAtPath (.fn fk) p = none
      unfold fnAtPath
      cases hsp : splitSlashStr p with
      | nil => exact absurd hsp (splitSlashStr_ne_nil p)
      | cons k rest => simp [lookupKeys, childGet, childKeys, aget]
  | null => exact fnAtPath_fnFree _ p (fnFree_prune .null path (by simp))
  | bool b => exact fnAtPath_fnFree _ p (fnFree_prune (.bool b) path (by simp))
  | num n => exact fnAtPath_fnFree _ p (fnFree_prune (.num n) path (by simp))
  | str s => exact fnAtPath_fnFree _ p (fnFree_prune (.str s) path (by simp))
  | obj o => exact fnAtPath_fnFree _ p (fnFree_prune (.obj o) path (by simp))
  | arr a => exact fnAtPath_fnFree _ p (fnFree_prune (.arr a) path (by simp))

end JSChannel

namespace JSChannel

/-- An object key holding a nested object keeps it (pruned) under the same
key. -/
theorem aget_pruneEntries_obj (kvs : List (String × JSVal)) (path k : String)
    (o : List (String × JSVal)) (h : aget kvs k = some (.obj o)) :
    aget (pruneEntries path kvs).1 k =
      some (.obj (pruneEntries (joinPath path k) o).1) := by
  induction kvs with
  | nil => cases h
  | cons hd rest ih =>
      obtain ⟨k2, c2⟩ := hd
      by_cases hk : k = k2
      · subst hk
        simp only [aget, if_pos rfl] at h
        cases h
        simp [pruneEntries, aget]
      · simp only [aget, if_neg hk] at h
        cases c2 with
        | fn fk => simpa [pruneEntries] using ih h
        | obj o2 => simpa [pruneEntries, aget, if_neg hk] using ih h
        | arr a2 => simpa [pruneEntries, aget, if_neg hk] using ih h
        | null => simpa [pruneEntries, aget, if_neg hk] using ih h
        | bool b => simpa [pruneEntries, aget, if_neg hk] using ih h
        | num n => simpa [pruneEntries, aget, if_neg hk] using ih h
        | str s => simpa [pruneEntries, aget, if_neg hk] using ih h

/-- An object key holding a nested array keeps it (pruned) under the same
key. -/
theorem aget_pruneEntries_arr (kvs : List (String × JSVal)) (path k : String)
    (a : List JSVal) (h : aget kvs k = some (.arr a)) :
    aget (pruneEntries path kvs).1 k =
      some (.arr (pruneElts (joinPath path k) 0 a).1) := by
  induction kvs with
  | nil => cases h
  | cons hd rest ih =>
      obtain ⟨k2, c2⟩ := hd
      by_cases hk : k = k2
      · subst hk
        simp only [aget, if_pos rfl] at h
        cases h
        simp [pruneEntries, aget]
      · simp only [aget, if_neg hk] at h
        cases c2 with
        | fn fk => simpa [pruneEntries] using ih h
        | obj o2 => simpa [pruneEntries, aget, if_neg hk] using ih h
        | arr a2 => simpa [pruneEntries, aget, if_neg hk] using ih h
        | null => simpa [pruneEntries, aget, if_neg hk] using ih h
        | bool b => simpa [pruneEntries, aget, if_neg hk] using ih h
        | num n => simpa [pruneEntries, aget, if_neg hk] using ih h
        | str s => simpa [pruneEntries, aget, if_neg hk] using ih h

/-- Pruning an array preserves its length (removed callables leave `null`
holes). -/
theorem pruneElts_len (path : String) (l : List JSVal) : ∀ i : Nat,
    (pruneElts path i l).1.length = l.length := by
  induction l with
  | nil => intro i; simp [pruneElts]
  | cons c rest ih =>
      intro i
      cases c with
      | fn fk => simpa [pruneElts] using ih (i + 1)
      | obj o => simpa [pruneElts] using ih (i + 1)
      | arr a => simpa [pruneElts] using ih (i + 1)
      | null => simpa [pruneElts] using ih (i + 1)
      | bool b => simpa [pruneElts] using ih (i + 1)
      | num n => simpa [pruneElts] using ih (i + 1)
      | str s => simpa [pruneElts] using ih (i + 1)

/-- An array slot holding a nested object keeps it (pruned) at the same
index. -/
theorem pruneElts_get_obj (l : List JSVal) : ∀ (i j : Nat)
    (o : List (String × JSVal)), l[j]? = some (.obj o) →
    (pruneElts path i l).1[j]? =
      some (.obj (pruneEntries (joinPath path (natKey (i + j))) o).1) := by
  induction l with
  | nil => intro i j o h; cases h
  | cons c rest ih =>
      intro i j o h
      cases j with
      | zero =>
          simp only [List.getElem?_cons_zero, Option.some.injEq] at h
          subst h
          simp [pruneElts]
      | succ j =>
          simp only [List.getElem?_cons_succ] at h
          have := ih (i + 1) j o h
          have harith : i + 1 + j = i + (j + 1) := by omega
          rw [harith] at this
          cases c with
          | fn fk => simpa [pruneElts] using this
          | obj o2 => simpa [pruneElts] using this
          | arr a2 => simpa [pruneElts] using this
          | null => simpa [pruneElts] using this
          | bool b => simpa [pruneElts] using this
          | num n => simpa [pruneElts] using this
          | str s => simpa [pruneElts] using this

/-- An array slot holding a nested array keeps it (pruned) at the same
index. -/
theorem pruneElts_get_arr (l : List JSVal) : ∀ (i j : Nat)
    (a : List JSVal), l[j]? = some (.arr a) →
    (pruneElts path i l).1[j]? =
      some (.arr (pruneElts (joinPath path (natKey (i + j))) 0 a).1) := by
  induction l with
  | nil => intro i j a h; cases h
  | cons c rest ih =>
      intro i j a h
      cases j with
      | zero =>
          simp only [List.getElem?_cons_zero, Option.some.injEq] at h
          subst h
          simp [pruneElts]
      | succ j =>
          simp only [List.getElem?_cons_succ] at h
          have := ih (i + 1) j a h
          have harith : i + 1 + j = i + (j + 1) := by omega
          rw [harith] at this
          cases c with
          | fn fk => simpa [pruneElts] using this
          | obj o2 => simpa [pruneElts] using this
          | arr a2 => simpa [pruneElts] using this
          | null => simpa [pruneElts] using this
          | bool b => simpa [pruneElts] using this
          | num n => simpa [pruneElts] using this
          | str s => simpa [pruneElts] using this

end JSChannel

namespace JSChannel

/-- Success condition of the synthetic-callback install walk: every
intermediate key resolves to an object or array, and the final assignment
lands on an object key or an existing array slot. -/
def walkOk : JSVal → List String → Bool
  | _, [] => false
  | v, [k] =>
      match v with
      | .obj _ => true
      | .arr l => (childGet (.arr l) k).isSome
      | _ => false
  | v, k :: k2 :: rest =>
      match childGet v k with
      | some (.obj o) => walkOk (.obj o) (k2 :: rest)
      | some (.arr l) => walkOk (.arr l) (k2 :: rest)
      | _ => false

/-- Every callable key list of a good tree is installable in the pruned
tree. -/
theorem walkOk_prune (v : JSVal) :
    ∀ (ks : List String) (fk : FnKind) (path : String),
    goodTree v = true → (ks, fk) ∈ fnKeyPathsVal v →
    walkOk (pruneVal path v).1 ks = true := by
  induction v using JSVal.inductionOn with
  | hnull => intro ks fk path _ h; cases h
  | hbool b => intro ks fk path _ h; cases h
  | hnum n => intro ks fk path _ h; cases h
  | hstr s => intro ks fk path _ h; cases h
  | hfn k => intro ks fk path _ h; cases h
  | hobj kvs ih =>
      intro ks fk path hg h
      obtain ⟨hnd, hge⟩ := goodTree_obj hg
      obtain ⟨k, c, ks', hm, he, hs⟩ := fnKeyPathsEntries_inv kvs ks fk h
      subst he
      have hag : aget kvs k = some c := aget_of_mem_nodup kvs k c hnd hm
      have hpv : (pruneVal path (.obj kvs)).1 =
          .obj (pruneEntries path kvs).1 := by simp [pruneVal]
      rw [hpv]
      have hgc : goodTree c = true := (goodEntries_mem hge hm).2
      rcases hs with ⟨he2, hks⟩ | ⟨o, he2, hmem⟩ | ⟨a, he2, hmem⟩
      · subst hks
        simp [walkOk]
      · subst he2
        obtain ⟨k2, ks2, he3, _⟩ :=
          fnKeyPaths_head_entries o (ks', fk) hmem
        simp only at he3
        subst he3
        have hpg := aget_pruneEntries_obj kvs path k o hag
        simp only [walkOk, childGet, childKeys, hpg]
        have := ih (k, .obj o) hm (k2 :: ks2) fk (joinPath path k) hgc hmem
        simpa [pruneVal] using this
      · subst he2
        obtain ⟨j, ks2, hj, he3⟩ :=
          fnKeyPaths_head_elts a 0 (ks', fk) hmem
        simp only [Nat.zero_add] at he3
        subst he3
        have hpg := aget_pruneEntries_arr kvs path k a hag
        simp only [walkOk, childGet, childKeys, hpg]
        have := ih (k, .arr a) hm (natKey j :: ks2) fk (joinPath path k)
          hgc hmem
        simpa [pruneVal] using this
  | harr l ih =>
      intro ks fk path hg h
      obtain ⟨j, c, ks', hj, hgj, he, hs⟩ := fnKeyPathsElts_inv l 0 ks fk h
      simp only [Nat.zero_add] at he
      subst he
      have hpv : (pruneVal path (.arr l)).1 =
          .arr (pruneElts path 0 l).1 := by simp [pruneVal]
      rw [hpv]
      have hgc : goodTree c = true :=
        goodElts_get (by simpa [goodTree] using hg) hgj
      have hlen : (pruneElts path 0 l).1.length = l.length :=
        pruneElts_len path l 0
      rcases hs with ⟨he2, hks⟩ | ⟨o, he2, hmem⟩ | ⟨a, he2, hmem⟩
      · subst hks
        simp only [walkOk]
        rw [childGet_arr]
        have hjl : j < (pruneElts path 0 l).1.length := by omega
        simp [List.getElem?_eq_getElem hjl]
      · subst he2
        obtain ⟨k2, ks2, he3, _⟩ :=
          fnKeyPaths_head_entries o (ks', fk) hmem
        simp only at he3
        subst he3
        have hpg := @pruneElts_get_obj path l 0 j o hgj
        simp only [Nat.zero_add] at hpg
        simp only [walkOk]
        rw [childGet_arr, hpg]
        have := ih (.obj o) (getElem?_mem_list hgj) (k2 :: ks2) fk
          (joinPath path (natKey j)) hgc hmem
        simpa [pruneVal] using this
      · subst he2
        obtain ⟨j2, ks2, hj2, he3⟩ :=
          fnKeyPaths_head_elts a 0 (ks', fk) hmem
        simp only [Nat.zero_add] at he3
        subst he3
        have hpg := @pruneElts_get_arr path l 0 j a hgj
        simp only [Nat.zero_add] at hpg
        simp only [walkOk]
        rw [childGet_arr, hpg]
        have := ih (.arr a) (getElem?_mem_list hgj) (natKey j2 :: ks2) fk
          (joinPath path (natKey j)) hgc hmem
        simpa [pruneVal] using this

end JSChannel

namespace JSChannel

/-- Two key lists separate at some depth where both still have a key. -/
def diverge : List String → List String → Prop
  | k :: ks, m :: ms => k ≠ m ∨ diverge ks ms
  | _, _ => False

theorem diverge_symm : ∀ {a b : List String}, diverge a b → diverge b a := by
  intro a
  induction a with
  | nil => intro b h; cases b <;> cases h
  | cons k ks ih =>
      intro b h
      cases b with
      | nil => cases h
      | cons m ms =>
          rcases h with h | h
          · exact Or.inl (fun he => h he.symm)
          · exact Or.inr (ih h)

theorem diverge_of_separate : ∀ (a b : List String), a ≠ b →
    ¬ a <+: b → ¬ b <+: a → diverge a b := by
  intro a
  induction a with
  | nil => intro b hne hab _; exact absurd (List.nil_prefix) hab
  | cons k ks ih =>
      intro b hne hab hba
      cases b with
      | nil => exact absurd (List.nil_prefix) hba
      | cons m ms =>
          by_cases hkm : k = m
          · subst hkm
            refine Or.inr (ih ms (fun he => hne (by rw [he])) ?_ ?_)
            · intro hp
              exact hab (List.cons_prefix_cons.mpr ⟨rfl, hp⟩)
            · intro hp
              exact hba (List.cons_prefix_cons.mpr ⟨rfl, hp⟩)
          · exact Or.inl hkm

/-- Callable locations are never nested inside one another. -/
theorem fnKeyPaths_unnested (v : JSVal) (hg : goodTree v = true)
    (q r : List String × FnKind) (hq : q ∈ fnKeyPathsVal v)
    (hr : r ∈ fnKeyPathsVal v) (hne : q.1 ≠ r.1) : ¬ q.1 <+: r.1 := by
  intro hp
  obtain ⟨t, ht⟩ := hp
  have hlq : lookupKeys v q.1 = some (.fn q.2) :=
    lookup_of_fnKeyPaths v q.1 q.2 hg hq
  have hlr : lookupKeys v r.1 = some (.fn r.2) :=
    lookup_of_fnKeyPaths v r.1 r.2 hg hr
  cases t with
  | nil => exact hne (by rw [← ht]; simp)
  | cons t0 ts =>
      rw [← ht, lookupKeys_append, hlq] at hlr
      simp [lookupKeys, childGet, childKeys, aget] at hlr

theorem setChild_obj (kvs : List (String × JSVal)) (k : String) (c : JSVal) :
    setChild (.obj kvs) k c = .obj (aset kvs k c) := rfl

theorem setChild_arr (l : List JSVal) (k : String) (c : JSVal) :
    setChild (.arr l) k c = .arr (setArrElts c k 0 l) := rfl

theorem installOne_obj (o : List (String × JSVal)) (items : List String)
    (full : String) (tid : Nat) :
    ∃ o2, installOne (.obj o) items full tid = .obj o2 := by
  cases items with
  | nil => exact ⟨o, rfl⟩
  | cons k rest =>
      cases rest with
      | nil => exact ⟨aset o k (.fn (.synth tid full)), rfl⟩
      | cons k2 rest2 => exact ⟨aset o k _, rfl⟩

theorem installOne_arr (l : List JSVal) (items : List String)
    (full : String) (tid : Nat) :
    ∃ l2, installOne (.arr l) items full tid = .arr l2 := by
  cases items with
  | nil => exact ⟨l, rfl⟩
  | cons k rest =>
      cases rest with
      | nil => exact ⟨setArrElts (.fn (.synth tid full)) k 0 l, rfl⟩
      | cons k2 rest2 => exact ⟨setArrElts _ k 0 l, rfl⟩

/-- A successful install walk plants the synthetic callable at its path. -/
theorem lookup_installOne_self (tid : Nat) : ∀ (ks : List String)
    (v : JSVal) (full : String), walkOk v ks = true →
    lookupKeys (installOne v ks full tid) ks =
      some (.fn (.synth tid full)) := by
  intro ks
  induction ks with
  | nil => intro v full h; simp [walkOk] at h
  | cons k rest ih =>
      intro v full h
      cases rest with
      | nil =>
          show lookupKeys (setChild v k (.fn (.synth tid full))) [k] = _
          cases v with
          | obj kvs =>
              simp [lookupKeys, setChild_obj, childGet, childKeys,
                aget_aset_self]
          | arr l =>
              simp only [walkOk] at h
              have := childGet_setChild_self (.arr l) k
                (.fn (.synth tid full)) (by simpa using h)
              simp [lookupKeys, this]
          | null => simp [walkOk] at h
          | bool b => simp [walkOk] at h
          | num n => simp [walkOk] at h
          | str s => simp [walkOk] at h
          | fn fk => simp [walkOk] at h
      | cons k2 rest2 =>
          simp only [walkOk] at h
          cases hcg : childGet v k with
          | none => rw [hcg] at h; simp at h
          | some c =>
              rw [hcg] at h
              cases c with
              | obj o =>
                  have hstep : installOne v (k :: k2 :: rest2) full tid =
                      setChild v k (installOne (.obj o) (k2 :: rest2)
                        full tid) := by
                    simp [installOne, hcg, jsTypeofObject]
                  rw [hstep]
                  have hself := childGet_setChild_self v k
                    (installOne (.obj o) (k2 :: rest2) full tid)
                    (by simp [hcg])
                  simp only [lookupKeys, hself]
                  exact ih (.obj o) full h
              | arr a =>
                  have hstep : installOne v (k :: k2 :: rest2) full tid =
                      setChild v k (installOne (.arr a) (k2 :: rest2)
                        full tid) := by
                    simp [installOne, hcg, jsTypeofObject]
                  rw [hstep]
                  have hself := childGet_setChild_self v k
                    (installOne (.arr a) (k2 :: rest2) full tid)
                    (by simp [hcg])
                  simp only [lookupKeys, hself]
                  exact ih (.arr a) full h
              | null => simp at h
              | bool b => simp at h
              | num n => simp at h
              | str s => simp at h
              | fn fk => simp at h

end JSChannel

namespace JSChannel

theorem walkOk_setChild_ne (v : JSVal) (k m : String) (z : JSVal)
    (ms : List String) (hm : m ≠ k) :
    walkOk (setChild v k z) (m :: ms) = walkOk v (m :: ms) := by
  cases ms with
  | nil =>
      cases v with
      | obj kvs => simp [setChild_obj, walkOk]
      | arr l =>
          rw [setChild_arr]
          simp only [walkOk]
          rw [← setChild_arr, childGet_setChild_ne _ _ _ _ hm]
      | null => rfl
      | bool b => rfl
      | num n => rfl
      | str s => rfl
      | fn fk => rfl
  | cons m2 ms2 =>
      simp only [walkOk]
      rw [childGet_setChild_ne _ _ _ _ hm]

theorem lookup_setChild_ne (v : JSVal) (k m : String) (z : JSVal)
    (ms : List String) (hm : m ≠ k) :
    lookupKeys (setChild v k z) (m :: ms) = lookupKeys v (m :: ms) := by
  simp only [lookupKeys]
  rw [childGet_setChild_ne _ _ _ _ hm]

/-- Installing along one key list leaves the walk condition of any
separated key list unchanged. -/
theorem walkOk_installOne_diverge (tid : Nat) : ∀ (ks ms : List String)
    (v : JSVal) (full : String), walkOk v ks = true → diverge ks ms →
    walkOk (installOne v ks full tid) ms = walkOk v ms := by
  intro ks
  induction ks with
  | nil => intro ms v full h _; simp [walkOk] at h
  | cons k rest ih =>
      intro ms v full h hd
      cases ms with
      | nil => cases hd
      | cons m ms2 =>
          cases rest with
          | nil =>
              have hkm : k ≠ m := by
                rcases hd with hd | hd
                · exact hd
                · cases hd
              show walkOk (setChild v k (.fn (.synth tid full))) (m :: ms2)
                  = _
              exact walkOk_setChild_ne v k m _ ms2 (fun he => hkm he.symm)
          | cons k2 rest2 =>
              simp only [walkOk] at h
              cases hcg : childGet v k with
              | none => rw [hcg] at h; simp at h
              | some c =>
                  rw [hcg] at h
                  by_cases hkm : k = m
                  · subst hkm
                    have hdd : diverge (k2 :: rest2) ms2 := by
                      rcases hd with hd | hd
                      · exact absurd rfl hd
                      · exact hd
                    cases ms2 with
                    | nil => cases hdd
                    | cons m2 ms3 =>
                        cases c with
                        | obj o =>
                            have hstep : installOne v (k :: k2 :: rest2)
                                full tid = setChild v k
                                  (installOne (.obj o) (k2 :: rest2)
                                    full tid) := by
                              simp [installOne, hcg, jsTypeofObject]
                            obtain ⟨o2, ho2⟩ := installOne_obj o
                              (k2 :: rest2) full tid
                            rw [hstep, ho2]
                            have hself := childGet_setChild_self v k
                              (.obj o2) (by simp [hcg])
                            simp only [walkOk, hself, hcg]
                            have := ih (m2 :: ms3) (.obj o) full h hdd
                            rw [ho2] at this
                            exact this
                        | arr a =>
                            have hstep : installOne v (k :: k2 :: rest2)
                                full tid = setChild v k
                                  (installOne (.arr a) (k2 :: rest2)
                                    full tid) := by
                              simp [installOne, hcg, jsTypeofObject]
                            obtain ⟨l2, hl2⟩ := installOne_arr a
                              (k2 :: rest2) full tid
                            rw [hstep, hl2]
                            have hself := childGet_setChild_self v k
                              (.arr l2) (by simp [hcg])
                            simp only [walkOk, hself, hcg]
                            have := ih (m2 :: ms3) (.arr a) full h hdd
                            rw [hl2] at this
                            exact this
                        | null => simp at h
                        | bool b => simp at h
                        | num n => simp at h
                        | str s => simp at h
                        | fn fk => simp at h
                  · cases c with
                    | obj o =>
                        have hstep : installOne v (k :: k2 :: rest2)
                            full tid = setChild v k
                              (installOne (.obj o) (k2 :: rest2)
                                full tid) := by
                          simp [installOne, hcg, jsTypeofObject]
                        rw [hstep]
                        exact walkOk_setChild_ne v k m _ ms2
                          (fun he => hkm he.symm)
                    | arr a =>
                        have hstep : installOne v (k :: k2 :: rest2)
                            full tid = setChild v k
                              (installOne (.arr a) (k2 :: rest2)
                                full tid) := by
                          simp [installOne, hcg, jsTypeofObject]
                        rw [hstep]
                        exact walkOk_setChild_ne v k m _ ms2
                          (fun he => hkm he.symm)
                    | null => simp at h
                    | bool b => simp at h
                    | num n => simp at h
                    | str s => simp at h
                    | fn fk => simp at h

/-- Installing along one key list leaves the value at any separated key
list unchanged. -/
theorem lookup_installOne_diverge (tid : Nat) : ∀ (ks ms : List String)
    (v : JSVal) (full : String), walkOk v ks = true → diverge ks ms →
    lookupKeys (installOne v ks full tid) ms = lookupKeys v ms := by
  intro ks
  induction ks with
  | nil => intro ms v full h _; simp [walkOk] at h
  | cons k rest ih =>
      intro ms v full h hd
      cases ms with
      | nil => cases hd
      | cons m ms2 =>
          cases rest with
          | nil =>
              have hkm : k ≠ m := by
                rcases hd with hd | hd
                · exact hd
                · cases hd
              show lookupKeys (setChild v k (.fn (.synth tid full)))
                  (m :: ms2) = _
              exact lookup_setChild_ne v k m _ ms2 (fun he => hkm he.symm)
          | cons k2 rest2 =>
              simp only [walkOk] at h
              cases hcg : childGet v k with
              | none => rw [hcg] at h; simp at h
              | some c =>
                  rw [hcg] at h
                  by_cases hkm : k = m
                  · subst hkm
                    have hdd : diverge (k2 :: rest2) ms2 := by
                      rcases hd with hd | hd
                      · exact absurd rfl hd
                      · exact hd
                    cases c with
                    | obj o =>
                        have hstep : installOne v (k :: k2 :: rest2)
                            full tid = setChild v k
                              (installOne (.obj o) (k2 :: rest2)
                                full tid) := by
                          simp [installOne, hcg, jsTypeofObject]
                        rw [hstep]
                        have hself := childGet_setChild_self v k
                          (installOne (.obj o) (k2 :: rest2) full tid)
                          (by simp [hcg])
                        simp only [lookupKeys, hself, hcg]
                        exact ih ms2 (.obj o) full h hdd
                    | arr a =>
                        have hstep : installOne v (k :: k2 :: rest2)
                            full tid = setChild v k
                              (installOne (.arr a) (k2 :: rest2)
                                full tid) := by
                          simp [installOne, hcg, jsTypeofObject]
                        rw [hstep]
                        have hself := childGet_setChild_self v k
                          (installOne (.arr a) (k2 :: rest2) full tid)
                          (by simp [hcg])
                        simp only [lookupKeys, hself, hcg]
                        exact ih ms2 (.arr a) full h hdd
                    | null => simp at h
                    | bool b => simp at h
                    | num n => simp at h
                    | str s => simp at h
                    | fn fk => simp at h
                  · cases c with
                    | obj o =>
                        have hstep : installOne v (k :: k2 :: rest2)
                            full tid = setChild v k
                              (installOne (.obj o) (k2 :: rest2)
                                full tid) := by
                          simp [installOne, hcg, jsTypeofObject]
                        rw [hstep]
                        exact lookup_setChild_ne v k m _ ms2
                          (fun he => hkm he.symm)
                    | arr a =>
                        have hstep : installOne v (k :: k2 :: rest2)
                            full tid = setChild v k
                              (installOne (.arr a) (k2 :: rest2)
                                full tid) := by
                          simp [installOne, hcg, jsTypeofObject]
                        rw [hstep]
                        exact lookup_setChild_ne v k m _ ms2
                          (fun he => hkm he.symm)
                    | null => simp at h
                    | bool b => simp at h
                    | num n => simp at h
                    | str s => simp at h
                    | fn fk => simp at h

end JSChannel

namespace JSChannel

/-- The only callable a successful install walk adds is the synthetic one
at its own path. -/
theorem lookup_installOne_fn (tid : Nat) : ∀ (ks ms : List String)
    (v : JSVal) (full : String) (fk : FnKind), walkOk v ks = true →
    lookupKeys (installOne v ks full tid) ms = some (.fn fk) →
    (ms = ks ∧ fk = .synth tid full) ∨
      lookupKeys v ms = some (.fn fk) := by
  intro ks
  induction ks with
  | nil => intro ms v full fk h _; simp [walkOk] at h
  | cons k rest ih =>
      intro ms v full fk h hl
      cases rest with
      | nil =>
          have hstep : installOne v [k] full tid =
              setChild v k (.fn (.synth tid full)) := rfl
          rw [hstep] at hl
          cases ms with
          | nil =>
              simp only [lookupKeys, Option.some.injEq] at hl
              exfalso
              cases v with
              | obj kvs => rw [setChild_obj] at hl; cases hl
              | arr l => rw [setChild_arr] at hl; cases hl
              | null => simp [walkOk] at h
              | bool b => simp [walkOk] at h
              | num n => simp [walkOk] at h
              | str s => simp [walkOk] at h
              | fn fk2 => simp [walkOk] at h
          | cons m ms2 =>
              by_cases hkm : m = k
              · subst hkm
                have hself : childGet (setChild v m (.fn (.synth tid full)))
                    m = some (.fn (.synth tid full)) := by
                  cases v with
                  | obj kvs =>
                      simp [setChild_obj, childGet, childKeys,
                        aget_aset_self]
                  | arr l =>
                      simp only [walkOk] at h
                      exact childGet_setChild_self (.arr l) m _
                        (by simpa using h)
                  | null => simp [walkOk] at h
                  | bool b => simp [walkOk] at h
                  | num n => simp [walkOk] at h
                  | str s => simp [walkOk] at h
                  | fn fk2 => simp [walkOk] at h
                simp only [lookupKeys, hself] at hl
                cases ms2 with
                | nil =>
                    simp only [lookupKeys, Option.some.injEq,
                      JSVal.fn.injEq] at hl
                    exact Or.inl ⟨rfl, hl.symm⟩
                | cons m2 ms3 =>
                    simp [lookupKeys, childGet, childKeys, aget] at hl
              · rw [lookup_setChild_ne v k m _ ms2 hkm] at hl
                exact Or.inr hl
      | cons k2 rest2 =>
          simp only [walkOk] at h
          cases hcg : childGet v k with
          | none => rw [hcg] at h; simp at h
          | some c =>
              rw [hcg] at h
              have hcases : (∃ o, c = JSVal.obj o) ∨
                  (∃ a, c = JSVal.arr a) := by
                cases c with
                | obj o => exact Or.inl ⟨o, rfl⟩
                | arr a => exact Or.inr ⟨a, rfl⟩
                | null => simp at h
                | bool b => simp at h
                | num n => simp at h
                | str s => simp at h
                | fn fk2 => simp at h
              have hw : walkOk c (k2 :: rest2) = true := by
                rcases hcases with ⟨o, rfl⟩ | ⟨a, rfl⟩ <;> exact h
              have hstep : installOne v (k :: k2 :: rest2) full tid =
                  setChild v k (installOne c (k2 :: rest2) full tid) := by
                rcases hcases with ⟨o, rfl⟩ | ⟨a, rfl⟩ <;>
                  simp [installOne, hcg, jsTypeofObject]
              rw [hstep] at hl
              cases ms with
              | nil =>
                  simp only [lookupKeys, Option.some.injEq] at hl
                  exfalso
                  cases v with
                  | obj kvs => rw [setChild_obj] at hl; cases hl
                  | arr l => rw [setChild_arr] at hl; cases hl
                  | null => simp [childGet, childKeys, aget] at hcg
                  | bool b => simp [childGet, childKeys, aget] at hcg
                  | num n => simp [childGet, childKeys, aget] at hcg
                  | str s => simp [childGet, childKeys, aget] at hcg
                  | fn fk2 => simp [childGet, childKeys, aget] at hcg
              | cons m ms2 =>
                  by_cases hkm : m = k
                  · subst hkm
                    have hself := childGet_setChild_self v m
                      (installOne c (k2 :: rest2) full tid) (by simp [hcg])
                    simp only [lookupKeys, hself] at hl
                    cases ms2 with
                    | nil =>
                        simp only [lookupKeys, Option.some.injEq] at hl
                        exfalso
                        rcases hcases with ⟨o, rfl⟩ | ⟨a, rfl⟩
                        · obtain ⟨o2, ho2⟩ := installOne_obj o
                            (k2 :: rest2) full tid
                          rw [ho2] at hl
                          cases hl
                        · obtain ⟨l2, hl2⟩ := installOne_arr a
                            (k2 :: rest2) full tid
                          rw [hl2] at hl
                          cases hl
                    | cons m2 ms3 =>
                        rcases ih (m2 :: ms3) c full fk hw hl with
                          ⟨he, hfk⟩ | hrest
                        · exact Or.inl ⟨by rw [he], hfk⟩
                        · refine Or.inr ?_
                          simp only [lookupKeys, hcg]
                          exact hrest
                  · rw [lookup_setChild_ne v k m _ ms2 hkm] at hl
                    exact Or.inr hl

end JSChannel

namespace JSChannel

/-- The installation fold over callable key lists (the key-list view of the
receiver's `m.callbacks` loop). -/
def installFold (tid : Nat) (qs : List (List String × FnKind)) (v : JSVal) :
    JSVal :=
  qs.foldl (fun w q => installOne w q.1 (joinKeys q.1) tid) v

theorem installFold_nil (tid : Nat) (v : JSVal) :
    installFold tid [] v = v := rfl

theorem installFold_cons (tid : Nat) (q : List String × FnKind)
    (rest : List (List String × FnKind)) (v : JSVal) :
    installFold tid (q :: rest) v =
      installFold tid rest (installOne v q.1 (joinKeys q.1) tid) := rfl

/-- The whole fold leaves the value at a key list separated from every
installed key list unchanged. -/
theorem lookup_installFold_diverge (tid : Nat) :
    ∀ (qs : List (List String × FnKind)) (v : JSVal) (ms : List String),
    (∀ q ∈ qs, walkOk v q.1 = true) →
    List.Pairwise (fun a b : List String × FnKind => diverge a.1 b.1) qs →
    (∀ q ∈ qs, diverge q.1 ms) →
    lookupKeys (installFold tid qs v) ms = lookupKeys v ms := by
  intro qs
  induction qs with
  | nil => intro v ms _ _ _; rfl
  | cons q rest ih =>
      intro v ms hw hp hd
      rw [installFold_cons]
      have hwq : walkOk v q.1 = true := hw q (by simp)
      have hph : ∀ r ∈ rest, diverge q.1 r.1 :=
        fun r hr => (List.pairwise_cons.mp hp).1 r hr
      have hw1 : ∀ r ∈ rest,
          walkOk (installOne v q.1 (joinKeys q.1) tid) r.1 = true := by
        intro r hr
        rw [walkOk_installOne_diverge tid q.1 r.1 v _ hwq (hph r hr)]
        exact hw r (List.mem_cons_of_mem _ hr)
      rw [ih _ ms hw1 (List.pairwise_cons.mp hp).2
            (fun r hr => hd r (List.mem_cons_of_mem _ hr))]
      exact lookup_installOne_diverge tid q.1 ms v _ hwq (hd q (by simp))

/-- Master fold lemma: after installing every key list, each of them holds
its synthetic callable, and no other path holds a callable the base value
did not already hold. -/
theorem installFold_spec (tid : Nat) :
    ∀ (qs : List (List String × FnKind)) (v : JSVal),
    (∀ q ∈ qs, walkOk v q.1 = true) →
    List.Pairwise (fun a b : List String × FnKind => diverge a.1 b.1) qs →
    (∀ q ∈ qs, lookupKeys (installFold tid qs v) q.1 =
        some (.fn (.synth tid (joinKeys q.1)))) ∧
    (∀ (ms : List String) (fk : FnKind),
        lookupKeys (installFold tid qs v) ms = some (.fn fk) →
        (∃ q ∈ qs, ms = q.1 ∧ fk = .synth tid (joinKeys q.1)) ∨
          lookupKeys v ms = some (.fn fk)) := by
  intro qs
  induction qs with
  | nil =>
      intro v _ _
      exact ⟨fun q hq => absurd hq (List.not_mem_nil q),
        fun ms fk h => Or.inr h⟩
  | cons q rest ih =>
      intro v hw hp
      have hwq : walkOk v q.1 = true := hw q (by simp)
      have hph : ∀ r ∈ rest, diverge q.1 r.1 :=
        fun r hr => (List.pairwise_cons.mp hp).1 r hr
      have hprest := (List.pairwise_cons.mp hp).2
      have hw1 : ∀ r ∈ rest,
          walkOk (installOne v q.1 (joinKeys q.1) tid) r.1 = true := by
        intro r hr
        rw [walkOk_installOne_diverge tid q.1 r.1 v _ hwq (hph r hr)]
        exact hw r (List.mem_cons_of_mem _ hr)
      obtain ⟨ih1, ih2⟩ := ih (installOne v q.1 (joinKeys q.1) tid) hw1
        hprest
      constructor
      · intro r hr
        rcases List.mem_cons.mp hr with he | hr2
        · subst he
          rw [installFold_cons,
            lookup_installFold_diverge tid rest _ r.1 hw1 hprest
              (fun r2 hr2 => diverge_symm (hph r2 hr2))]
          exact lookup_installOne_self tid r.1 v (joinKeys r.1) hwq
        · rw [installFold_cons]
          exact ih1 r hr2
      · intro ms fk h
        rw [installFold_cons] at h
        rcases ih2 ms fk h with ⟨r, hr, he, hfk⟩ | h2
        · exact Or.inl ⟨r, List.mem_cons_of_mem _ hr, he, hfk⟩
        · rcases lookup_installOne_fn tid q.1 ms v (joinKeys q.1) fk hwq h2
            with ⟨he, hfk⟩ | h3
          · exact Or.inl ⟨q, by simp, he, hfk⟩
          · exact Or.inr h3

end JSChannel

namespace JSChannel

theorem foldl_joinPath_ne_empty (ks : List String) : ∀ p : String,
    p ≠ "" → ks.foldl joinPath p ≠ "" := by
  induction ks with
  | nil => intro p hp; simp only [List.foldl_nil]; exact hp
  | cons k ks ih =>
      intro p hp
      simp only [List.foldl_cons]
      exact ih (joinPath p k) (joinPath_ne_empty p k hp)

theorem joinKeys_ne_empty (ks : List String) (hne : ks ≠ [])
    (hg : ∀ k ∈ ks, goodKey k = true) : joinKeys ks ≠ "" := by
  cases ks with
  | nil => exact absurd rfl hne
  | cons k ks =>
      show (k :: ks).foldl joinPath "" ≠ ""
      simp only [List.foldl_cons, joinPath_empty]
      exact foldl_joinPath_ne_empty ks k (goodKey_ne_empty k (hg k (by simp)))

theorem splitSlashStr_joinKeys (ks : List String) (hne : ks ≠ [])
    (hg : ∀ k ∈ ks, goodKey k = true) :
    splitSlashStr (joinKeys ks) = ks :=
  joinKeys_split ks hne hg

theorem keysNodup_of_pairwise : ∀ l : List String,
    List.Pairwise (fun a b : String => a ≠ b) l → keysNodup l = true := by
  intro l
  induction l with
  | nil => intro _; rfl
  | cons k rest ih =>
      intro h
      obtain ⟨hh, ht⟩ := List.pairwise_cons.mp h
      simp only [keysNodup, Bool.and_eq_true]
      refine ⟨?_, ih ht⟩
      cases hcc : rest.contains k with
      | false => rfl
      | true =>
          exfalso
          have hkm : k ∈ rest := by
            obtain ⟨a, ha, hb⟩ :=
              (List.contains_iff_exists_mem_beq).mp hcc
            have hka : k = a := by simpa using hb
            rw [hka]
            exact ha
          exact hh k hkm rfl

theorem aget_of_mem_nodup2 {β : Type} (kvs : List (String × β)) (k : String)
    (c : β) (hnd : keysNodup (kvs.map Prod.fst) = true)
    (hm : (k, c) ∈ kvs) : aget kvs k = some c := by
  induction kvs with
  | nil => cases hm
  | cons hd tl ih =>
      obtain ⟨k2, c2⟩ := hd
      simp only [List.map_cons] at hnd
      obtain ⟨hk2, hnd2⟩ := keysNodup_head hnd
      rcases List.mem_cons.mp hm with he | hm2
      · cases he
        simp [aget]
      · have hkne : k ≠ k2 := by
          intro he
          subst he
          exact hk2 (List.mem_map.mpr ⟨(k, c), hm2, rfl⟩)
        simp only [aget, if_neg hkne]
        exact ih hnd2 hm2

/-- The string-level install loop of `onMessage` equals the key-list fold
when every path splits back to its key list. -/
theorem installCallbacks_eq_fold (tid : Nat) :
    ∀ (qs : List (List String × FnKind)) (v : JSVal),
    (∀ q ∈ qs, splitSlashStr (joinKeys q.1) = q.1) →
    installCallbacks v (qs.map (fun q => joinKeys q.1)) tid =
      installFold tid qs v := by
  intro qs
  induction qs with
  | nil => intro v _; rfl
  | cons q rest ih =>
      intro v h
      show installCallbacks v (joinKeys q.1 :: rest.map _) tid = _
      rw [installFold_cons]
      have h1 : installCallbacks v (joinKeys q.1 :: rest.map
          (fun q => joinKeys q.1)) tid =
          installCallbacks (installOne v (splitSlashStr (joinKeys q.1))
            (joinKeys q.1) tid) (rest.map (fun q => joinKeys q.1)) tid := rfl
      rw [h1, h q (by simp)]
      exact ih _ (fun r hr => h r (List.mem_cons_of_mem _ hr))

end JSChannel

namespace JSChannel

/-- Distinct callable key lists of a good tree separate at some depth. -/
theorem fnKeyPaths_pairwise_diverge (v : JSVal) (hg : goodTree v = true) :
    List.Pairwise (fun a b : List String × FnKind => diverge a.1 b.1)
      (fnKeyPathsVal v) := by
  refine List.Pairwise.imp_of_mem ?_ (fnKeyPaths_pairwise v hg)
  intro a b ha hb hne
  exact diverge_of_separate a.1 b.1 hne
    (fnKeyPaths_unnested v hg a b ha hb hne)
    (fnKeyPaths_unnested v hg b a hb ha (fun he => hne he.symm))

/-- The slash-joined callable paths of a good tree are pairwise distinct. -/
theorem fnKeyPaths_names_nodup (v : JSVal) (hg : goodTree v = true) :
    keysNodup ((fnKeyPathsVal v).map
      (fun q : List String × FnKind => joinKeys q.1)) = true := by
  apply keysNodup_of_pairwise
  rw [List.pairwise_map]
  refine List.Pairwise.imp_of_mem ?_ (fnKeyPaths_pairwise v hg)
  intro a b ha hb hne he
  have hga := fnKeyPaths_good v a.1 a.2 hg ha
  have hgb := fnKeyPaths_good v b.1 b.2 hg hb
  have h1 := splitSlashStr_joinKeys a.1 hga.1 hga.2
  have h2 := splitSlashStr_joinKeys b.1 hgb.1 hgb.2
  exact hne (by rw [← h1, ← h2, he])

end JSChannel

namespace JSChannel

/-- C4: for every call whose params tree holds callables at slash-joined
paths, the outbound request carries exactly those paths in its callbacks
array with the callables pruned out of the params; the receiver installs
synthetic callables at exactly those paths; and invoking the synthetic
callable at a path posts a progress frame naming that path which the
caller routes back to the original local callable at that path and to no
other. -/
theorem claim_C4_callback_routing (params : JSVal) (tid : Nat)
    (stR stC : ChanState) (cbs : List (String × FnKind)) (sfk : FnKind)
    (efk : Option FnKind)
    (hgood : goodTree params = true)
    (htid : tid ≠ 0)
    (hcbs : cbs = (pruneFunctions "" params).2)
    (hR : (aget stR.tranTbl tid).isSome = true)
    (hRready : stR.ready = true)
    (hC : aget stC.tranTbl tid = some (.out cbs sfk efk)) :
    (∀ st0 meth, meth ≠ "" →
       call st0 ⟨meth, some params, some sfk, efk⟩ =
         .ok (postMessage
           {st0 with
              tranTbl := aset st0.tranTbl st0.curTranId (.out cbs sfk efk),
              curTranId := st0.curTranId + 2}
           {emptyFrame with
              id := some st0.curTranId,
              method := some (scopeMethod st0.scope meth),
              params := some (pruneFunctions "" params).1,
              callbacks := if (cbs.map Prod.fst).length ≠ 0
                           then some (cbs.map Prod.fst) else none} false)) ∧
    (∀ p, p ∈ cbs.map Prod.fst ↔ (fnAtPath params p).isSome = true) ∧
    (∀ p, aget cbs p = fnAtPath params p) ∧
    (∀ p, fnAtPath (pruneFunctions "" params).1 p = none) ∧
    (∀ p, fnAtPath (installCallbacks (pruneFunctions "" params).1
         (cbs.map Prod.fst) tid) p =
       if p ∈ cbs.map Prod.fst then some (.synth tid p) else none) ∧
    (∀ p ∈ cbs.map Prod.fst, ∀ v : Option JSVal,
       transInvoke stR tid p (cbs.map Prod.fst) v =
         .ok (stR, [{emptyFrame with
                       id := some tid, callback := some p,
                       params := v}])) ∧
    (∀ p ∈ cbs.map Prod.fst, ∀ v : Option JSVal, ∃ fk,
       aget cbs p = some fk ∧ fnAtPath params p = some fk ∧
       dispatch stC {emptyFrame with
                       id := some tid, callback := some p,
                       params := v} = (stC, [], [.localCallback fk v])) := by
  subst hcbs
  have hsnd : (pruneFunctions "" params).2 =
      (fnKeyPathsVal params).map
        (fun q : List String × FnKind => (joinKeys q.1, q.2)) :=
    pruneVal_snd params ""
  have hnames : (pruneFunctions "" params).2.map Prod.fst =
      (fnKeyPathsVal params).map
        (fun q : List String × FnKind => joinKeys q.1) := by
    rw [hsnd, List.map_map]
    rfl
  have hqgood : ∀ q ∈ fnKeyPathsVal params, q.1 ≠ [] ∧
      ∀ k ∈ q.1, goodKey k = true :=
    fun q hq => fnKeyPaths_good params q.1 q.2 hgood hq
  have hsplitq : ∀ q ∈ fnKeyPathsVal params,
      splitSlashStr (joinKeys q.1) = q.1 :=
    fun q hq => splitSlashStr_joinKeys q.1 (hqgood q hq).1 (hqgood q hq).2
  have hwalks : ∀ q ∈ fnKeyPathsVal params,
      walkOk (pruneFunctions "" params).1 q.1 = true :=
    fun q hq => walkOk_prune params q.1 q.2 "" hgood hq
  have hpdiv := fnKeyPaths_pairwise_diverge params hgood
  have hnodup : keysNodup ((pruneFunctions "" params).2.map Prod.fst)
      = true := by
    rw [hnames]
    exact fnKeyPaths_names_nodup params hgood
  have hmemname : ∀ p, p ∈ (pruneFunctions "" params).2.map Prod.fst ↔
      ∃ q ∈ fnKeyPathsVal params, joinKeys q.1 = p := by
    intro p
    rw [hnames]
    exact List.mem_map
  have hatpath : ∀ q ∈ fnKeyPathsVal params,
      fnAtPath params (joinKeys q.1) = some q.2 := by
    intro q hq
    unfold fnAtPath
    rw [hsplitq q hq, lookup_of_fnKeyPaths params q.1 q.2 hgood hq]
  have hagetq : ∀ q ∈ fnKeyPathsVal params,
      aget (pruneFunctions "" params).2 (joinKeys q.1) = some q.2 := by
    intro q hq
    refine aget_of_mem_nodup2 _ _ _ hnodup ?_
    rw [hsnd]
    exact List.mem_map.mpr ⟨q, hq, rfl⟩
  have hback : ∀ p : String, (fnAtPath params p).isSome = true →
      ∃ q ∈ fnKeyPathsVal params, joinKeys q.1 = p := by
    intro p hp
    unfold fnAtPath at hp
    cases hl : lookupKeys params (splitSlashStr p) with
    | none => rw [hl] at hp; simp at hp
    | some c =>
        rw [hl] at hp
        cases c with
        | fn fk =>
            have hmem : (splitSlashStr p, fk) ∈ fnKeyPathsVal params :=
              fnKeyPaths_of_lookup params (splitSlashStr p) fk hgood
                (splitSlashStr_ne_nil p) hl
            refine ⟨(splitSlashStr p, fk), hmem, ?_⟩
            have hq := hqgood _ hmem
            exact splitSlashStr_inj
              (splitSlashStr_joinKeys (splitSlashStr p) hq.1 hq.2)
        | null => simp at hp
        | bool b => simp at hp
        | num n => simp at hp
        | str s => simp at hp
        | obj o => simp at hp
        | arr a => simp at hp
  refine ⟨?conc1, ?conc2, ?conc3, ?conc4, ?conc5, ?conc6, ?conc7⟩
  case conc1 =>
      intro st0 meth hmeth
      simp only [call, if_neg hmeth]
  case conc2 =>
      intro p
      constructor
      · intro hp
        obtain ⟨q, hq, he⟩ := (hmemname p).mp hp
        rw [← he, hatpath q hq]
        rfl
      · intro hp
        obtain ⟨q, hq, he⟩ := hback p hp
        exact (hmemname p).mpr ⟨q, hq, he⟩
  case conc3 =>
      intro p
      by_cases hp : p ∈ (pruneFunctions "" params).2.map Prod.fst
      · obtain ⟨q, hq, he⟩ := (hmemname p).mp hp
        rw [← he, hatpath q hq, hagetq q hq]
      · have h1 : aget (pruneFunctions "" params).2 p = none :=
          aget_eq_none _ _ hp
        have h2 : fnAtPath params p = none := by
          cases hfa : fnAtPath params p with
          | none => rfl
          | some fk =>
              exfalso
              obtain ⟨q, hq, he⟩ := hback p (by rw [hfa]; rfl)
              exact hp ((hmemname p).mpr ⟨q, hq, he⟩)
        rw [h1, h2]
  case conc4 =>
      intro p
      exact fnAtPath_prune params "" p
  case conc5 =>
      have hfold := installFold_spec tid (fnKeyPathsVal params)
        (pruneFunctions "" params).1 hwalks hpdiv
      have hieq : installCallbacks (pruneFunctions "" params).1
          ((pruneFunctions "" params).2.map Prod.fst) tid =
          installFold tid (fnKeyPathsVal params)
            (pruneFunctions "" params).1 := by
        rw [hnames]
        exact installCallbacks_eq_fold tid _ _ hsplitq
      intro p
      by_cases hp : p ∈ (pruneFunctions "" params).2.map Prod.fst
      · rw [if_pos hp]
        obtain ⟨q, hq, he⟩ := (hmemname p).mp hp
        unfold fnAtPath
        rw [hieq, ← he, hsplitq q hq, hfold.1 q hq]
      · rw [if_neg hp]
        unfold fnAtPath
        rw [hieq]
        cases hl : lookupKeys (installFold tid (fnKeyPathsVal params)
            (pruneFunctions "" params).1) (splitSlashStr p) with
        | none => rfl
        | some c =>
            cases c with
            | fn fk =>
                exfalso
                rcases hfold.2 (splitSlashStr p) fk hl with
                  ⟨q, hq, he, hfk⟩ | h2
                · have hqg := hqgood q hq
                  have hpe : joinKeys q.1 = p :=
                    splitSlashStr_inj (by
                      rw [splitSlashStr_joinKeys q.1 hqg.1 hqg.2, ← he])
                  exact hp ((hmemname p).mpr ⟨q, hq, hpe⟩)
                · have h2b : lookupKeys (pruneVal "" params).1
                      (splitSlashStr p) = some (.fn fk) := h2
                  have := fnAtPath_prune params "" p
                  unfold fnAtPath at this
                  rw [h2b] at this
                  cases this
            | null => rfl
            | bool b => rfl
            | num n => rfl
            | str s => rfl
            | obj o => rfl
            | arr a => rfl
  case conc6 =>
      intro p hp v
      have h1 : (aget stR.tranTbl tid).isNone = false := by
        cases hag : aget stR.tranTbl tid with
        | none => rw [hag] at hR; simp at hR
        | some r => rfl
      have h2 : ((pruneFunctions "" params).2.map Prod.fst).contains p
          = true :=
        List.contains_iff_exists_mem_beq.mpr ⟨p, hp, by simp⟩
      unfold transInvoke
      rw [h1, h2]
      simp only [Bool.not_true, if_false, Bool.false_eq_true]
      unfold postMessage
      rw [hRready]
      simp
  case conc7 =>
      intro p hp v
      obtain ⟨q, hq, he⟩ := (hmemname p).mp hp
      refine ⟨q.2, by rw [← he]; exact hagetq q hq,
        by rw [← he]; exact hatpath q hq, ?_⟩
      have hid : idTruthy (some tid) = true := by
        simp [idTruthy, htid]
      have hcb : strTruthy (some p) = true := by
        have hqg := hqgood q hq
        have : p ≠ "" := by
          rw [← he]
          exact joinKeys_ne_empty q.1 hqg.1 hqg.2
        simp [strTruthy, this]
      unfold dispatch
      simp only [hid, hcb]
      simp only [strTruthy, Bool.and_false, Bool.and_true,
        Bool.true_and, Bool.false_eq_true, if_false]
      have hagp : aget (pruneFunctions "" params).2 p = some q.2 := by
        rw [← he]
        exact hagetq q hq
      simp only [routeCallback, Option.getD_some, hC, hagp]
      simp [emptyFrame]

end JSChannel

namespace JSChannel

/-- C4 demonstration params: callables under a top-level key, inside a
nested object, and in an array slot. -/
def c4Params : JSVal :=
  .obj [("x", .num 3), ("cb", .fn (.token 1)),
        ("nest", .obj [("f", .fn (.token 2)), ("z", .str "s")]),
        ("arr", .arr [.num 1, .fn (.token 3)])]

/-- The callback side table `pruneFunctions` builds for `c4Params`. -/
def c4Cbs : List (String × FnKind) :=
  [("cb", .token 1), ("nest/f", .token 2), ("arr/1", .token 3)]

theorem c4Cbs_eq : c4Cbs = (pruneFunctions "" c4Params).2 := by
  simp only [c4Params, pruneFunctions, pruneVal, pruneEntries, pruneElts]
  norm_num [c4Cbs, joinPath, natKey, natKeyCore, digitChar]
  constructor <;> decide

/-- Receiver-side channel holding the inbound record of transaction 5. -/
def c4Receiver : ChanState :=
  { chanId := "R", regTbl := [], tranTbl := [(5, .inn)], curTranId := 8,
    ready := true, pendingQueue := [], attached := true,
    origin := some "*", scope := none }

/-- Caller-side channel holding the outbound record of transaction 5. -/
def c4Caller : ChanState :=
  { chanId := "C", regTbl := [],
    tranTbl := [(5, .out c4Cbs (.token 9) none)], curTranId := 5,
    ready := true, pendingQueue := [], attached := true,
    origin := some "*", scope := none }

theorem claim_C4_callback_routing_witness :
    goodTree c4Params = true ∧
    c4Cbs.map Prod.fst = ["cb", "nest/f", "arr/1"] ∧
    aget c4Cbs "nest/f" = some (.token 2) ∧
    fnAtPath (pruneFunctions "" c4Params).1 "nest/f" = none ∧
    fnAtPath (installCallbacks (pruneFunctions "" c4Params).1
        (c4Cbs.map Prod.fst) 5) "nest/f" = some (.synth 5 "nest/f") ∧
    fnAtPath (installCallbacks (pruneFunctions "" c4Params).1
        (c4Cbs.map Prod.fst) 5) "nest/z" = none ∧
    transInvoke c4Receiver 5 "arr/1" (c4Cbs.map Prod.fst)
        (some (.num 7)) =
      .ok (c4Receiver, [{emptyFrame with
                           id := some 5, callback := some "arr/1",
                           params := some (.num 7)}]) ∧
    dispatch c4Caller {emptyFrame with
                         id := some 5, callback := some "nest/f",
                         params := some (.num 7)} =
      (c4Caller, [], [.localCallback (.token 2) (some (.num 7))]) := by
  have h := claim_C4_callback_routing c4Params 5 c4Receiver c4Caller
    c4Cbs (.token 9) none (by decide) (by decide) c4Cbs_eq rfl rfl rfl
  refine ⟨by decide, by decide, ?_, h.2.2.2.1 "nest/f", ?_, ?_, ?_, ?_⟩
  · exact (h.2.2.1 "nest/f").trans (by decide)
  · exact (h.2.2.2.2.1 "nest/f").trans (by decide)
  · exact (h.2.2.2.2.1 "nest/z").trans (by decide)
  · exact h.2.2.2.2.2.1 "arr/1" (by decide) (some (.num 7))
  · obtain ⟨fk, h1, h2, h3⟩ :=
      h.2.2.2.2.2.2 "nest/f" (by decide) (some (.num 7))
    have h4 : some fk = some (FnKind.token 2) :=
      h1.symm.trans (by decide)
    have h5 : fk = FnKind.token 2 := Option.some.inj h4
    rw [← h5]
    exact h3

end JSChannel
